import Mathlib

/-!
Verification of the STAR-CCM+ log-file parser (`parse_starccm_logfile` in
`monitor.py`).  The parser is embedded shallowly: Python strings become
`List Char`, Python floats become exact values (`PyFloat`), dictionaries
become insertion-ordered association lists, and the `try/except` control
flow of the scan becomes an `Except Unit` computation.
-/

set_option maxHeartbeats 1000000

namespace Monitor

/-- Python floating values as they are recorded by the parser.  Finite
values are modelled as exact rationals (the parser only stores parsed
literals and never computes with them, so exact values are a faithful
abstraction of IEEE doubles here); `nan` models `float('nan')` and
`inf b` models a signed infinity with `b = true` for the positive one. -/
inductive PyFloat where
  | num : ℚ → PyFloat
  | nan : PyFloat
  | inf : Bool → PyFloat
deriving DecidableEq

/-- Python whitespace as matched by `str.strip` and the regex class `\s`
(ASCII range): space, tab, newline, carriage return, vertical tab, form
feed. -/
def isWS (c : Char) : Bool :=
  c == ' ' || c == '\t' || c == '\n' || c == '\r' || c == Char.ofNat 11 || c == Char.ofNat 12

/-- Python `str.strip()`: drop whitespace from both ends. -/
def pstrip (l : List Char) : List Char :=
  ((l.dropWhile isWS).reverse.dropWhile isWS).reverse

/-- Worker for `reSplitWs`: `cur` is the token being accumulated, `pend`
is a run of whitespace whose fate (separator or token content) is not yet
decided. -/
def splitRuns (mn : Nat) : List Char → List Char → List Char → List (List Char)
  | cur, pend, [] => if mn ≤ pend.length then [cur, []] else [cur ++ pend]
  | cur, pend, c :: cs =>
    if isWS c then splitRuns mn cur (pend ++ [c]) cs
    else if mn ≤ pend.length then cur :: splitRuns mn [c] [] cs
    else splitRuns mn (cur ++ pend ++ [c]) [] cs

/-- Python `re.split` on a run of at least `mn` whitespace characters:
`reSplitWs 1` models `re.split(r'\s+', s)` and `reSplitWs 2` models
`re.split(r'\s{2,}', s)`. -/
def reSplitWs (mn : Nat) (l : List Char) : List (List Char) :=
  splitRuns mn [] [] l

def digitVal (c : Char) : Nat := c.toNat - '0'.toNat

def digitsToNat (l : List Char) : Nat := l.foldl (fun n c => 10 * n + digitVal c) 0

/-- Python `str.isdigit()` (restricted to ASCII digits, the only digits
appearing in these logs): nonempty and all digits. -/
def pyIsDigit (l : List Char) : Bool := !l.isEmpty && l.all Char.isDigit

def lowerList (l : List Char) : List Char := l.map Char.toLower

/-- Exponent part of a Python float literal: either the end of the token
or `e`/`E`, an optional sign and a nonempty digit run consuming the rest. -/
def parseExp : List Char → Option Int
  | [] => some 0
  | c :: cs =>
    if c = 'e' ∨ c = 'E' then
      let sr : Bool × List Char :=
        match cs with
        | '+' :: r => (false, r)
        | '-' :: r => (true, r)
        | r => (false, r)
      let dr := sr.2.span Char.isDigit
      if dr.1 = [] ∨ dr.2 ≠ [] then none
      else some (if sr.1 then -(digitsToNat dr.1 : Int) else (digitsToNat dr.1 : Int))
    else none

/-- Mantissa (and then exponent) of a Python float literal:
`digits [. digits]` or `. digits`, with at least one digit present.
Returns the mantissa read as an integer, the number of fraction digits
and the exponent, so the value is `mantissa / 10 ^ fracDigits * 10 ^ exp`. -/
def mantissaThen (l : List Char) : Option (Nat × Nat × Int) :=
  let ir := l.span Char.isDigit
  match ir.2 with
  | '.' :: r2 =>
    let fr := r2.span Char.isDigit
    if ir.1 = [] ∧ fr.1 = [] then none
    else (parseExp fr.2).map (fun e => (digitsToNat (ir.1 ++ fr.1), fr.1.length, e))
  | _ =>
    if ir.1 = [] then none
    else (parseExp ir.2).map (fun e => (digitsToNat ir.1, 0, e))

/-- The exact rational `±(m / 10 ^ k) * 10 ^ e`, assembled with integer
arithmetic into a single fraction. -/
def magValue (neg : Bool) (m k : Nat) (e : Int) : ℚ :=
  let nn : Int := if neg then -(m : Int) else (m : Int)
  match e with
  | Int.ofNat en => Rat.divInt (nn * ((10 ^ en : Nat) : Int)) (((10 ^ k : Nat) : Nat) : Int)
  | Int.negSucc en => Rat.divInt nn (((10 ^ (k + (en + 1)) : Nat) : Nat) : Int)

/-- Python `float(tok)`: strip whitespace, optional sign, then either the
keywords `nan` / `inf` / `infinity` (case-insensitive) or a numeric
literal.  `none` models a raised `ValueError`.  (PEP-515 underscore digit
separators are not modelled; the tokens of these logs never contain
them.) -/
def parseFloat (s : List Char) : Option PyFloat :=
  let t := pstrip s
  let nr : Bool × List Char :=
    match t with
    | '+' :: r => (false, r)
    | '-' :: r => (true, r)
    | r => (false, r)
  if lowerList nr.2 = "nan".toList then some PyFloat.nan
  else if lowerList nr.2 = "inf".toList ∨ lowerList nr.2 = "infinity".toList then
    some (PyFloat.inf (!nr.1))
  else
    match mantissaThen nr.2 with
    | some mke => some (PyFloat.num (magValue nr.1 mke.1 mke.2.1 mke.2.2))
    | none => none

/-- Match a literal string at the front of the input, returning the rest. -/
def litP : List Char → List Char → Option (List Char)
  | [], r => some r
  | _ :: _, [] => none
  | p :: ps, c :: cs => if p = c then litP ps cs else none

/-- Consume a nonempty maximal run of characters satisfying `p`. -/
def run1 (p : Char → Bool) (l : List Char) : Option (List Char) :=
  let ar := l.span p
  if ar.1 = [] then none else some ar.2

/-- The character class `[\d.eE+-]` of the time-step regex. -/
def isTimeClass (c : Char) : Bool :=
  c.isDigit || c == '.' || c == 'e' || c == 'E' || c == '+' || c == '-'

/-- Model of `re.match` of `TimeStep\s+\d+:\s+Time\s+([\d.eE+-]+)` against a line:
anchored at the start, trailing characters ignored; returns the captured
group.  All subpatterns here are maximal-munch-exact because adjacent
character classes are disjoint, so a deterministic matcher is faithful. -/
def matchTimestep (l : List Char) : Option (List Char) := do
  let r1 ← litP "TimeStep".toList l
  let r2 ← run1 isWS r1
  let r3 ← run1 Char.isDigit r2
  let r4 ←
    match r3 with
    | ':' :: t => some t
    | _ => none
  let r5 ← run1 isWS r4
  let r6 ← litP "Time".toList r5
  let r7 ← run1 isWS r6
  let cap := r7.takeWhile isTimeClass
  if cap = [] then none else some cap

/-! ### Insertion-ordered dictionaries (Python `dict`) -/

def names {α : Type} (d : List (List Char × α)) : List (List Char) := d.map Prod.fst

def findVal {α : Type} : List (List Char × α) → List Char → Option α
  | [], _ => none
  | e :: t, k => if e.1 = k then some e.2 else findVal t k

/-- Python `d[k].append(v)` on a dictionary of lists (no-op on a missing key;
the parser only ever appends to keys it created at initialisation). -/
def appendAt : List (List Char × List PyFloat) → List Char → PyFloat → List (List Char × List PyFloat)
  | [], _, _ => []
  | e :: t, k, v => if e.1 = k then (e.1, e.2 ++ [v]) :: appendAt t k v else e :: appendAt t k v

/-- Python `d[k] = v`: update in place if present, else append at the end
(Python dict insertion order). -/
def upsert {α : Type} : List (List Char × α) → List Char → α → List (List Char × α)
  | [], k, v => [(k, v)]
  | e :: t, k, v => if e.1 = k then (e.1, v) :: t else e :: upsert t k v

def vlen (d : List (List Char × List PyFloat)) (k : List Char) : Nat :=
  ((findVal d k).getD []).length

/-! ### The parser state and its transition function -/

/-- The fixed vocabulary `expected_residual_cols`, in dict-literal order. -/
def expectedResidualCols : List (List Char) :=
  ["Continuity".toList, "X-momentum".toList, "Y-momentum".toList, "Z-momentum".toList,
    "Tke".toList, "Sdr".toList, "Intermittency".toList]

def contKey : List Char := "Continuity".toList

def placeholderTok : List Char := "---".toList

structure ParseState where
  iterations : List Nat
  reportTimes : List PyFloat
  reportIterations : List Nat
  residuals : List (List Char × List PyFloat)
  reports : List (List Char × List PyFloat)
  residualLayout : List (List Char × Nat)
  reportLayout : List (List Char × Nat)
  currentTime : PyFloat
  headerFound : Bool
  dataStarted : Bool
deriving DecidableEq

/-- Model of `reports_data = {key: [] for key in colunas_relatorios_especificadas}`. -/
def initReports (cols : List (List Char)) : List (List Char × List PyFloat) :=
  cols.foldl (fun d k => upsert d k []) []

def initState (cols : List (List Char)) : ParseState :=
  { iterations := [], reportTimes := [], reportIterations := [],
    residuals := expectedResidualCols.map (fun k => (k, [])),
    reports := initReports cols,
    residualLayout := [], reportLayout := [],
    currentTime := PyFloat.num 0, headerFound := false, dataStarted := false }

/-- The header-scanning loop: for each token (with its position in the
filtered token list), an exact residual-name match goes into the fresh
residual map, `elif` an exact requested-report-name match goes into the
fresh report map. -/
def buildMapsAux (cols : List (List Char)) :
    Nat → List (List Char × Nat) → List (List Char × Nat) → List (List Char) →
    List (List Char × Nat) × List (List Char × Nat)
  | _, mr, mp, [] => (mr, mp)
  | i, mr, mp, h :: t =>
    if h ∈ expectedResidualCols then buildMapsAux cols (i + 1) (upsert mr h i) mp t
    else if h ∈ cols then buildMapsAux cols (i + 1) mr (upsert mp h i) t
    else buildMapsAux cols (i + 1) mr mp t

/-- Model of `[h.strip() for h in re.split(r'\s{2,}', line) if h.strip()]`. -/
def headerTokens (l : List Char) : List (List Char) :=
  ((reSplitWs 2 l).map pstrip).filter (fun h => h ≠ [])

/-- Python `sub in s` for strings: `occursIn sub s` holds when `sub`
occurs contiguously inside `s`. -/
def occursIn (p : List Char) : List Char → Bool
  | [] => p.isEmpty
  | c :: t => p.isPrefixOf (c :: t) || occursIn p t

/-- Header recognition: starts with `Iteration`, contains `Continuity`,
and (no report fields requested, or some requested name occurs as a
substring of the line). -/
def isHeaderLine (cols : List (List Char)) (l : List Char) : Bool :=
  "Iteration".toList.isPrefixOf l && occursIn "Continuity".toList l &&
    (cols.isEmpty || cols.any (fun rc => occursIn rc l))

/-- Effect of a recognized header line: build fresh layouts and replace
each existing layout only when its fresh map got at least one entry. -/
def applyHeader (cols : List (List Char)) (st : ParseState) (l : List Char) : ParseState :=
  let mps := buildMapsAux cols 0 [] [] (headerTokens l)
  { st with
    headerFound := true
    residualLayout := if mps.1 ≠ [] then mps.1 else st.residualLayout
    reportLayout := if mps.2 ≠ [] then mps.2 else st.reportLayout }

/-- The shared shape of the two per-row field loops
(`for name, col_idx in map.items(): data[name].append(float(tok) if in
range else nan)`).  The Boolean is `false` when a `float` call raised
`ValueError`, which abandons the rest of the loop (and of the row). -/
def rowFieldLoop :
    List (List Char × Nat) → List (List Char × List PyFloat) → List (List Char) →
    List (List Char × List PyFloat) × Bool
  | [], d, _ => (d, true)
  | e :: rest, d, toks =>
    if e.2 < toks.length then
      match parseFloat (toks.getD e.2 []) with
      | some v => rowFieldLoop rest (appendAt d e.1 v) toks
      | none => (d, false)
    else rowFieldLoop rest (appendAt d e.1 PyFloat.nan) toks

/-- One conditional NaN-append per expected residual column. -/
def padOnce (n : Nat) : List (List Char × List PyFloat) → List (List Char) → List (List Char × List PyFloat)
  | d, [] => d
  | d, k :: ks => padOnce n (if vlen d k < n then appendAt d k PyFloat.nan else d) ks

/-- The `except (ValueError, IndexError)` handler: pad each residual list
that is shorter than `iterations` by one NaN, but only when `iterations`
is nonempty and the first expected column (`Continuity`) is empty or
shorter than `iterations`. -/
def reconcile (st : ParseState) : ParseState :=
  if st.iterations ≠ [] ∧
      ((findVal st.residuals contKey).getD [] = [] ∨
        ((findVal st.residuals contKey).getD []).length < st.iterations.length) then
    { st with residuals := padOnce st.iterations.length st.residuals expectedResidualCols }
  else st

/-- The report part of a data row (lines 81-88 of the source): the gating
field is the first requested report column (`None` when none were
requested, and a falsy empty name also skips, as in the source); a sample
is taken when its column is in range and its token is neither the
placeholder `---` nor empty.  A `ValueError` in the report loop falls
into the same handler as the residual loop. -/
def reportPhase (cols : List (List Char)) (st2 : ParseState) (toks : List (List Char))
    (n : Nat) : ParseState :=
  let g := cols.headD []
  if g = [] then st2
  else
    match findVal st2.reportLayout g with
    | none => st2
    | some c =>
      if c < toks.length ∧ toks.getD c [] ≠ placeholderTok ∧ toks.getD c [] ≠ [] then
        let st3 := { st2 with
          reportTimes := st2.reportTimes ++ [st2.currentTime]
          reportIterations := st2.reportIterations ++ [n] }
        let rrep := rowFieldLoop st2.reportLayout st2.reports toks
        if rrep.2 = false then reconcile { st3 with reports := rrep.1 }
        else { st3 with reports := rrep.1 }
      else st2

/-- The `try` block of a data row after the first token passed `isdigit`:
append the iteration number, run the residual loop (falling into the
handler on a `ValueError`), then the report phase. -/
def rowBody (cols : List (List Char)) (st : ParseState) (toks : List (List Char)) : ParseState :=
  let n := digitsToNat (toks.headD [])
  let st1 := { st with iterations := st.iterations ++ [n] }
  let rres := rowFieldLoop st.residualLayout st.residuals toks
  if rres.2 = false then reconcile { st1 with residuals := rres.1 }
  else reportPhase cols { st1 with residuals := rres.1 } toks n

/-- The body of the data-row branch (the `try` block and its handler);
a first token failing `isdigit` skips the line silently. -/
def processRow (cols : List (List Char)) (st : ParseState) (l : List Char) : ParseState :=
  let toks := reSplitWs 1 (pstrip l)
  if toks.isEmpty || !pyIsDigit (toks.headD []) then st
  else rowBody cols st toks

/-- Model of `line.startswith(' ') or (line and line[0].isdigit())`. -/
def dataRowGate : List Char → Bool
  | [] => false
  | c :: _ => c == ' ' || c.isDigit

/-- One iteration of the line loop.  `Except.error` models an exception
escaping to the outer generic handler (only possible when the float
captured by the time-step regex fails to parse). -/
def processLine (cols : List (List Char)) (st : ParseState) (l : List Char) : Except Unit ParseState :=
  let s := pstrip l
  if s.isEmpty then Except.ok st
  else
    match matchTimestep s with
    | some cap =>
      match parseFloat cap with
      | some t => Except.ok { st with currentTime := t, dataStarted := true }
      | none => Except.error ()
    | none =>
      if isHeaderLine cols s then Except.ok (applyHeader cols st s)
      else if st.headerFound && st.dataStarted && dataRowGate s then
        Except.ok (processRow cols st s)
      else Except.ok st

def scanLines (cols : List (List Char)) : ParseState → List (List Char) → Except Unit ParseState
  | st, [] => Except.ok st
  | st, l :: ls =>
    match processLine cols st l with
    | Except.ok st1 => scanLines cols st1 ls
    | Except.error e => Except.error e

/-- Model of `for line in f`: split the file text at newlines. -/
def splitLines : List Char → List (List Char)
  | [] => [[]]
  | c :: t =>
    if c = '\n' then [] :: splitLines t
    else
      match splitLines t with
      | [] => [[c]]
      | h :: r => (c :: h) :: r

structure ParseResult where
  iterations : List Nat
  residuals : List (List Char × List PyFloat)
  reportIterations : List Nat
  reportTimes : List PyFloat
  reports : List (List Char × List PyFloat)
deriving DecidableEq

/-- End-of-parse padding/truncation of one residual list
(`while len < max_len: append(nan)` then `[:max_len]`). -/
def padTrunc (v : List PyFloat) (n : Nat) : List PyFloat :=
  (v ++ List.replicate (n - v.length) PyFloat.nan).take n

def finalize (st : ParseState) : ParseResult :=
  if st.iterations = [] then
    ⟨st.iterations, st.residuals, st.reportIterations, st.reportTimes, st.reports⟩
  else
    ⟨st.iterations, st.residuals.map (fun e => (e.1, padTrunc e.2 st.iterations.length)),
      st.reportIterations, st.reportTimes, st.reports⟩

def emptyResult : ParseResult := ⟨[], [], [], [], []⟩

/-- The function `parse_starccm_logfile`.  `input = none` models a missing / unreadable
file (the `FileNotFoundError` path); a scan error models an exception
escaping the line loop into the generic handler.  Both return the fully
empty tuple `([], {}, [], [], {})`. -/
def parse_starccm_logfile (input : Option (List Char)) (cols : List (List Char)) : ParseResult :=
  match input with
  | none => emptyResult
  | some text =>
    match scanLines cols (initState cols) (splitLines text) with
    | Except.error _ => emptyResult
    | Except.ok st => finalize st

/-! ### Association-list lemmas -/

theorem names_appendAt (d : List (List Char × List PyFloat)) (k : List Char) (v : PyFloat) :
    names (appendAt d k v) = names d := by
  induction d with
  | nil => rfl
  | cons e t ih => by_cases h : e.1 = k <;> simp [appendAt, h, names, ih] <;> exact ih

theorem findVal_appendAt_self (d : List (List Char × List PyFloat)) (k : List Char) (v : PyFloat) :
    findVal (appendAt d k v) k = (findVal d k).map (fun l => l ++ [v]) := by
  induction d with
  | nil => rfl
  | cons e t ih => by_cases h : e.1 = k <;> simp [appendAt, h, findVal, ih]

theorem findVal_appendAt_ne (d : List (List Char × List PyFloat)) (k j : List Char) (v : PyFloat)
    (h : j ≠ k) : findVal (appendAt d k v) j = findVal d j := by
  induction d with
  | nil => rfl
  | cons e t ih =>
    have h3 : ¬ k = j := fun hh => h hh.symm
    by_cases h1 : e.1 = k
    · simp [appendAt, h1, findVal, h3, ih]
    · by_cases h2 : e.1 = j <;> simp [appendAt, h1, findVal, h2, h, ih]

theorem findVal_eq_none_of_not_mem {α : Type} (d : List (List Char × α)) (k : List Char)
    (h : k ∉ names d) : findVal d k = none := by
  induction d with
  | nil => rfl
  | cons e t ih =>
    simp only [names, List.map_cons, List.mem_cons, not_or] at h
    have h1 : ¬ e.1 = k := fun hh => h.1 hh.symm
    exact by simp [findVal, h1]; exact ih h.2

theorem mem_names_of_findVal_eq_some {α : Type} (d : List (List Char × α)) (k : List Char) (v : α)
    (h : findVal d k = some v) : k ∈ names d := by
  induction d with
  | nil => simp [findVal] at h
  | cons e t ih =>
    by_cases h1 : e.1 = k
    · exact List.mem_cons.mpr (Or.inl h1.symm)
    · simp only [findVal, h1, if_false] at h
      exact List.mem_cons.mpr (Or.inr (ih h))

theorem findVal_isSome_of_mem_names {α : Type} (d : List (List Char × α)) (k : List Char)
    (h : k ∈ names d) : ∃ v, findVal d k = some v := by
  induction d with
  | nil => exact absurd h (List.not_mem_nil k)
  | cons e t ih =>
    by_cases h1 : e.1 = k
    · exact ⟨e.2, by simp [findVal, h1]⟩
    · simp only [names, List.map_cons, List.mem_cons] at h
      rcases h with h | h
      · exact absurd h.symm h1
      · rcases ih h with ⟨v, hv⟩
        exact ⟨v, by simp [findVal, h1, hv]⟩

theorem vlen_appendAt_self_le (d : List (List Char × List PyFloat)) (k : List Char) (v : PyFloat) :
    vlen (appendAt d k v) k ≤ vlen d k + 1 := by
  unfold vlen
  rw [findVal_appendAt_self]
  cases findVal d k <;> simp

theorem vlen_appendAt_ne (d : List (List Char × List PyFloat)) (k j : List Char) (v : PyFloat)
    (h : j ≠ k) : vlen (appendAt d k v) j = vlen d j := by
  unfold vlen
  rw [findVal_appendAt_ne _ _ _ _ h]

theorem findVal_upsert_self {α : Type} (d : List (List Char × α)) (k : List Char) (v : α) :
    findVal (upsert d k v) k = some v := by
  induction d with
  | nil => simp [upsert, findVal]
  | cons e t ih => by_cases h : e.1 = k <;> simp [upsert, h, findVal, ih]

theorem findVal_upsert_ne {α : Type} (d : List (List Char × α)) (k j : List Char) (v : α)
    (h : j ≠ k) : findVal (upsert d k v) j = findVal d j := by
  have h3 : ¬ k = j := fun hh => h hh.symm
  induction d with
  | nil => simp [upsert, findVal, h3]
  | cons e t ih =>
    by_cases h1 : e.1 = k
    · simp [upsert, h1, findVal, h3]
    · by_cases h2 : e.1 = j <;> simp [upsert, h1, findVal, h2, h, ih]

theorem upsert_ne_nil {α : Type} (d : List (List Char × α)) (k : List Char) (v : α) :
    upsert d k v ≠ [] := by
  cases d with
  | nil => simp [upsert]
  | cons e t => by_cases h : e.1 = k <;> simp [upsert, h]

theorem names_upsert {α : Type} (d : List (List Char × α)) (k : List Char) (v : α) :
    names (upsert d k v) = if k ∈ names d then names d else names d ++ [k] := by
  induction d with
  | nil =>
    rw [show names ([] : List (List Char × α)) = [] from rfl, if_neg (List.not_mem_nil k)]
    rfl
  | cons e t ih =>
    show names (if e.1 = k then (e.1, v) :: t else e :: upsert t k v) =
      if k ∈ names (e :: t) then names (e :: t) else names (e :: t) ++ [k]
    have hne : names (e :: t) = e.1 :: names t := rfl
    by_cases h : e.1 = k
    · rw [if_pos h, if_pos (hne ▸ List.mem_cons.mpr (Or.inl h.symm))]
      show e.1 :: names t = names (e :: t)
      rfl
    · rw [if_neg h, hne]
      show e.1 :: names (upsert t k v) = if k ∈ e.1 :: names t then e.1 :: names t else (e.1 :: names t) ++ [k]
      have h2 : ¬ k = e.1 := fun hh => h hh.symm
      by_cases hm : k ∈ names t
      · rw [ih, if_pos hm, if_pos (List.mem_cons.mpr (Or.inr hm))]
      · rw [ih, if_neg hm, if_neg (by rw [List.mem_cons]; rintro (hh | hh) <;> [exact h2 hh; exact hm hh])]
        rfl

theorem mem_names_upsert {α : Type} (d : List (List Char × α)) (k j : List Char) (v : α) :
    j ∈ names (upsert d k v) ↔ j ∈ names d ∨ j = k := by
  rw [names_upsert]
  by_cases h : k ∈ names d
  · rw [if_pos h]
    constructor
    · exact fun hh => Or.inl hh
    · rintro (hh | rfl)
      · exact hh
      · exact h
  · rw [if_neg h, List.mem_append, List.mem_singleton]

theorem nodup_names_upsert {α : Type} (d : List (List Char × α)) (k : List Char) (v : α)
    (h : (names d).Nodup) : (names (upsert d k v)).Nodup := by
  rw [names_upsert]
  by_cases hm : k ∈ names d
  · rw [if_pos hm]; exact h
  · rw [if_neg hm]
    rw [List.nodup_append]
    exact ⟨h, List.nodup_singleton k, by
      intro a ha hb
      rw [List.mem_singleton] at hb
      exact hm (hb ▸ ha)⟩

/-! ### Branch equations for the recursive workers -/

theorem rowFieldLoop_nil (d : List (List Char × List PyFloat)) (t : List (List Char)) :
    rowFieldLoop [] d t = (d, true) := rfl

theorem rowFieldLoop_cons_some (e : List Char × Nat) (rest : List (List Char × Nat))
    (d : List (List Char × List PyFloat)) (t : List (List Char)) (v : PyFloat)
    (hl : e.2 < t.length) (hp : parseFloat (t.getD e.2 []) = some v) :
    rowFieldLoop (e :: rest) d t = rowFieldLoop rest (appendAt d e.1 v) t := by
  simp only [rowFieldLoop, if_pos hl, hp]

theorem rowFieldLoop_cons_none (e : List Char × Nat) (rest : List (List Char × Nat))
    (d : List (List Char × List PyFloat)) (t : List (List Char))
    (hl : e.2 < t.length) (hp : parseFloat (t.getD e.2 []) = none) :
    rowFieldLoop (e :: rest) d t = (d, false) := by
  simp only [rowFieldLoop, if_pos hl, hp]

theorem rowFieldLoop_cons_oob (e : List Char × Nat) (rest : List (List Char × Nat))
    (d : List (List Char × List PyFloat)) (t : List (List Char)) (hl : ¬ e.2 < t.length) :
    rowFieldLoop (e :: rest) d t = rowFieldLoop rest (appendAt d e.1 PyFloat.nan) t := by
  simp only [rowFieldLoop, if_neg hl]

theorem padOnce_nil (n : Nat) (d : List (List Char × List PyFloat)) :
    padOnce n d [] = d := rfl

theorem padOnce_cons_lt (n : Nat) (d : List (List Char × List PyFloat)) (k0 : List Char)
    (ks : List (List Char)) (h : vlen d k0 < n) :
    padOnce n d (k0 :: ks) = padOnce n (appendAt d k0 PyFloat.nan) ks := by
  simp only [padOnce, if_pos h]

theorem padOnce_cons_ge (n : Nat) (d : List (List Char × List PyFloat)) (k0 : List Char)
    (ks : List (List Char)) (h : ¬ vlen d k0 < n) :
    padOnce n d (k0 :: ks) = padOnce n d ks := by
  simp only [padOnce, if_neg h]

theorem buildMapsAux_nil (cols : List (List Char)) (i : Nat) (mr mp : List (List Char × Nat)) :
    buildMapsAux cols i mr mp [] = (mr, mp) := rfl

theorem buildMapsAux_cons_res (cols : List (List Char)) (i : Nat) (mr mp : List (List Char × Nat))
    (x : List Char) (t : List (List Char)) (h1 : x ∈ expectedResidualCols) :
    buildMapsAux cols i mr mp (x :: t) = buildMapsAux cols (i + 1) (upsert mr x i) mp t := by
  simp only [buildMapsAux, if_pos h1]

theorem buildMapsAux_cons_rep (cols : List (List Char)) (i : Nat) (mr mp : List (List Char × Nat))
    (x : List Char) (t : List (List Char)) (h1 : x ∉ expectedResidualCols) (h2 : x ∈ cols) :
    buildMapsAux cols i mr mp (x :: t) = buildMapsAux cols (i + 1) mr (upsert mp x i) t := by
  simp only [buildMapsAux, if_neg h1, if_pos h2]

theorem buildMapsAux_cons_skip (cols : List (List Char)) (i : Nat) (mr mp : List (List Char × Nat))
    (x : List Char) (t : List (List Char)) (h1 : x ∉ expectedResidualCols) (h2 : x ∉ cols) :
    buildMapsAux cols i mr mp (x :: t) = buildMapsAux cols (i + 1) mr mp t := by
  simp only [buildMapsAux, if_neg h1, if_neg h2]

/-! ### Lemmas about the per-row field loop -/

theorem rowFieldLoop_names (es : List (List Char × Nat)) (d : List (List Char × List PyFloat))
    (t : List (List Char)) : names (rowFieldLoop es d t).1 = names d := by
  induction es generalizing d with
  | nil => rfl
  | cons e rest ih =>
    by_cases h : e.2 < t.length
    · cases hp : parseFloat (t.getD e.2 []) with
      | some v => rw [rowFieldLoop_cons_some e rest d t v h hp, ih, names_appendAt]
      | none => rw [rowFieldLoop_cons_none e rest d t h hp]
    · rw [rowFieldLoop_cons_oob e rest d t h, ih, names_appendAt]

theorem rowFieldLoop_vlen_le (es : List (List Char × Nat)) (d : List (List Char × List PyFloat))
    (t : List (List Char)) (hnd : (names es).Nodup) (k : List Char) :
    vlen (rowFieldLoop es d t).1 k ≤ vlen d k + (if k ∈ names es then 1 else 0) := by
  induction es generalizing d with
  | nil => simp [rowFieldLoop_nil]
  | cons e rest ih =>
    have hne : names (e :: rest) = e.1 :: names rest := rfl
    rw [hne, List.nodup_cons] at hnd
    have hk : k ∈ names (e :: rest) ↔ k = e.1 ∨ k ∈ names rest := by
      rw [hne, List.mem_cons]
    have step : ∀ v, vlen (rowFieldLoop rest (appendAt d e.1 v) t).1 k ≤
        vlen d k + (if k ∈ names (e :: rest) then 1 else 0) := by
      intro v
      have h2 := ih (appendAt d e.1 v) hnd.2
      by_cases hke : k = e.1
      · have h3 : k ∉ names rest := hke ▸ hnd.1
        rw [if_neg h3] at h2
        have h4 : vlen (appendAt d e.1 v) k ≤ vlen d k + 1 := by
          rw [hke]; exact vlen_appendAt_self_le d e.1 v
        rw [if_pos (hk.mpr (Or.inl hke))]
        omega
      · have h4 : vlen (appendAt d e.1 v) k = vlen d k := vlen_appendAt_ne d e.1 k v hke
        rw [h4] at h2
        by_cases hkr : k ∈ names rest
        · rw [if_pos hkr] at h2
          rw [if_pos (hk.mpr (Or.inr hkr))]
          omega
        · rw [if_neg hkr] at h2
          omega
    by_cases h : e.2 < t.length
    · cases hp : parseFloat (t.getD e.2 []) with
      | some v => rw [rowFieldLoop_cons_some e rest d t v h hp]; exact step v
      | none =>
        rw [rowFieldLoop_cons_none e rest d t h hp]
        show vlen d k ≤ vlen d k + _
        omega
    · rw [rowFieldLoop_cons_oob e rest d t h]; exact step PyFloat.nan

theorem rowFieldLoop_untouched (es : List (List Char × Nat)) (d : List (List Char × List PyFloat))
    (t : List (List Char)) (k : List Char) (hk : k ∉ names es) :
    findVal (rowFieldLoop es d t).1 k = findVal d k := by
  induction es generalizing d with
  | nil => rfl
  | cons e rest ih =>
    have hke : k ≠ e.1 := fun hh => hk (List.mem_cons.mpr (Or.inl hh))
    have hkr : k ∉ names rest := fun hh => hk (List.mem_cons.mpr (Or.inr hh))
    by_cases h : e.2 < t.length
    · cases hp : parseFloat (t.getD e.2 []) with
      | some v =>
        rw [rowFieldLoop_cons_some e rest d t v h hp, ih (appendAt d e.1 v) hkr,
          findVal_appendAt_ne d e.1 k v hke]
      | none => rw [rowFieldLoop_cons_none e rest d t h hp]
    · rw [rowFieldLoop_cons_oob e rest d t h, ih (appendAt d e.1 PyFloat.nan) hkr,
        findVal_appendAt_ne d e.1 k _ hke]

theorem rowFieldLoop_append (a b : List (List Char × Nat)) (d : List (List Char × List PyFloat))
    (t : List (List Char)) :
    rowFieldLoop (a ++ b) d t =
      if (rowFieldLoop a d t).2 = true then rowFieldLoop b (rowFieldLoop a d t).1 t
      else rowFieldLoop a d t := by
  induction a generalizing d with
  | nil => simp [rowFieldLoop_nil]
  | cons e rest ih =>
    have hc : (e :: rest) ++ b = e :: (rest ++ b) := rfl
    by_cases h : e.2 < t.length
    · cases hp : parseFloat (t.getD e.2 []) with
      | some v =>
        rw [hc, rowFieldLoop_cons_some e (rest ++ b) d t v h hp,
          rowFieldLoop_cons_some e rest d t v h hp, ih (appendAt d e.1 v)]
      | none =>
        rw [hc, rowFieldLoop_cons_none e (rest ++ b) d t h hp,
          rowFieldLoop_cons_none e rest d t h hp]
        rfl
    · rw [hc, rowFieldLoop_cons_oob e (rest ++ b) d t h, rowFieldLoop_cons_oob e rest d t h,
        ih (appendAt d e.1 PyFloat.nan)]

theorem rowFieldLoop_ok (es : List (List Char × Nat)) (d : List (List Char × List PyFloat))
    (t : List (List Char))
    (h : ∀ e ∈ es, e.2 < t.length → parseFloat (t.getD e.2 []) ≠ none) :
    (rowFieldLoop es d t).2 = true := by
  induction es generalizing d with
  | nil => rfl
  | cons e rest ih =>
    have hrest : ∀ x ∈ rest, x.2 < t.length → parseFloat (t.getD x.2 []) ≠ none :=
      fun x hx => h x (List.mem_cons.mpr (Or.inr hx))
    by_cases hl : e.2 < t.length
    · cases hp : parseFloat (t.getD e.2 []) with
      | some v => rw [rowFieldLoop_cons_some e rest d t v hl hp]; exact ih _ hrest
      | none => exact absurd hp (h e (List.mem_cons.mpr (Or.inl rfl)) hl)
    · rw [rowFieldLoop_cons_oob e rest d t hl]
      exact ih _ hrest

theorem rowFieldLoop_value (es : List (List Char × Nat)) (d : List (List Char × List PyFloat))
    (t : List (List Char)) (hnd : (names es).Nodup)
    (hok : ∀ e ∈ es, e.2 < t.length ∧ parseFloat (t.getD e.2 []) ≠ none) :
    ∀ e ∈ es, ∀ v, parseFloat (t.getD e.2 []) = some v →
      findVal (rowFieldLoop es d t).1 e.1 = (findVal d e.1).map (fun l => l ++ [v]) := by
  induction es generalizing d with
  | nil => intro e he; exact absurd he (List.not_mem_nil e)
  | cons e0 rest ih =>
    intro e he v hv
    have hne : names (e0 :: rest) = e0.1 :: names rest := rfl
    rw [hne, List.nodup_cons] at hnd
    rcases hok e0 (List.mem_cons.mpr (Or.inl rfl)) with ⟨hl0, hp0⟩
    cases hp : parseFloat (t.getD e0.2 []) with
    | none => exact absurd hp hp0
    | some v0 =>
      have hstep := rowFieldLoop_cons_some e0 rest d t v0 hl0 hp
      rcases List.mem_cons.mp he with he0 | her
      · subst he0
        rw [hp] at hv
        cases hv
        rw [hstep, rowFieldLoop_untouched rest _ t e.1 hnd.1, findVal_appendAt_self]
      · have hne1 : e.1 ≠ e0.1 := by
          intro hh
          exact hnd.1 (hh ▸ List.mem_map_of_mem Prod.fst her)
        rw [hstep, ih (appendAt d e0.1 v0) hnd.2
            (fun x hx => hok x (List.mem_cons.mpr (Or.inr hx))) e her v hv,
          findVal_appendAt_ne d e0.1 e.1 v0 hne1]

/-! ### Lemmas about the exception-handler padding -/

theorem padOnce_names (n : Nat) (d : List (List Char × List PyFloat)) (ks : List (List Char)) :
    names (padOnce n d ks) = names d := by
  induction ks generalizing d with
  | nil => rfl
  | cons k0 rest ih =>
    by_cases h : vlen d k0 < n
    · rw [padOnce_cons_lt n d k0 rest h, ih, names_appendAt]
    · rw [padOnce_cons_ge n d k0 rest h, ih]

theorem padOnce_vlen_le (n : Nat) (d : List (List Char × List PyFloat)) (ks : List (List Char))
    (h : ∀ k, vlen d k ≤ n) : ∀ k, vlen (padOnce n d ks) k ≤ n := by
  induction ks generalizing d with
  | nil => exact h
  | cons k0 rest ih =>
    by_cases hc : vlen d k0 < n
    · rw [padOnce_cons_lt n d k0 rest hc]
      refine ih (appendAt d k0 PyFloat.nan) ?_
      intro k
      by_cases hk : k = k0
      · subst hk
        have := vlen_appendAt_self_le d k PyFloat.nan
        omega
      · rw [vlen_appendAt_ne d k0 k PyFloat.nan hk]
        exact h k
    · rw [padOnce_cons_ge n d k0 rest hc]
      exact ih d h

theorem padOnce_not_mem (n : Nat) (d : List (List Char × List PyFloat)) (ks : List (List Char))
    (k : List Char) (hk : k ∉ ks) : findVal (padOnce n d ks) k = findVal d k := by
  induction ks generalizing d with
  | nil => rfl
  | cons k0 rest ih =>
    have hke : k ≠ k0 := fun hh => hk (List.mem_cons.mpr (Or.inl hh))
    have hkr : k ∉ rest := fun hh => hk (List.mem_cons.mpr (Or.inr hh))
    by_cases h : vlen d k0 < n
    · rw [padOnce_cons_lt n d k0 rest h, ih (appendAt d k0 PyFloat.nan) hkr,
        findVal_appendAt_ne d k0 k _ hke]
    · rw [padOnce_cons_ge n d k0 rest h, ih d hkr]

theorem padOnce_findVal (n : Nat) (d : List (List Char × List PyFloat)) (ks : List (List Char))
    (hnd : ks.Nodup) (k : List Char) :
    findVal (padOnce n d ks) k = findVal d k ∨
      findVal (padOnce n d ks) k = (findVal d k).map (fun l => l ++ [PyFloat.nan]) := by
  induction ks generalizing d with
  | nil => exact Or.inl rfl
  | cons k0 rest ih =>
    rw [List.nodup_cons] at hnd
    by_cases hk : k = k0
    · subst hk
      by_cases h : vlen d k < n
      · rw [padOnce_cons_lt n d k rest h, padOnce_not_mem n _ rest k hnd.1,
          findVal_appendAt_self]
        exact Or.inr rfl
      · rw [padOnce_cons_ge n d k rest h, padOnce_not_mem n d rest k hnd.1]
        exact Or.inl rfl
    · by_cases h : vlen d k0 < n
      · rw [padOnce_cons_lt n d k0 rest h]
        rcases ih (appendAt d k0 PyFloat.nan) hnd.2 with hh | hh
        · rw [hh, findVal_appendAt_ne d k0 k _ (fun hhh => hk hhh)]
          exact Or.inl rfl
        · rw [hh, findVal_appendAt_ne d k0 k _ (fun hhh => hk hhh)]
          exact Or.inr rfl
      · rw [padOnce_cons_ge n d k0 rest h]
        exact ih d hnd.2

/-! ### Lemmas about the reconciliation handler -/

theorem reconcile_eq (st : ParseState) :
    reconcile st = st ∨
      reconcile st =
        { st with residuals := padOnce st.iterations.length st.residuals expectedResidualCols } := by
  unfold reconcile
  by_cases h : st.iterations ≠ [] ∧
      ((findVal st.residuals contKey).getD [] = [] ∨
        ((findVal st.residuals contKey).getD []).length < st.iterations.length)
  · rw [if_pos h]; exact Or.inr rfl
  · rw [if_neg h]; exact Or.inl rfl

theorem reconcile_frame (st : ParseState) :
    (reconcile st).iterations = st.iterations ∧
    (reconcile st).reportTimes = st.reportTimes ∧
    (reconcile st).reportIterations = st.reportIterations ∧
    (reconcile st).reports = st.reports ∧
    (reconcile st).residualLayout = st.residualLayout ∧
    (reconcile st).reportLayout = st.reportLayout ∧
    (reconcile st).currentTime = st.currentTime ∧
    (reconcile st).headerFound = st.headerFound ∧
    (reconcile st).dataStarted = st.dataStarted := by
  rcases reconcile_eq st with h | h <;> rw [h] <;> exact ⟨rfl, rfl, rfl, rfl, rfl, rfl, rfl, rfl, rfl⟩

theorem reconcile_names (st : ParseState) :
    names (reconcile st).residuals = names st.residuals := by
  rcases reconcile_eq st with h | h <;> rw [h]
  exact padOnce_names _ _ _

theorem reconcile_vlen_le (st : ParseState)
    (h : ∀ k, vlen st.residuals k ≤ st.iterations.length) :
    ∀ k, vlen (reconcile st).residuals k ≤ st.iterations.length := by
  rcases reconcile_eq st with hh | hh <;> rw [hh]
  · exact h
  · exact padOnce_vlen_le _ _ _ h

/-! ### Lemmas about the header-map builder -/

theorem buildMapsAux_res_ne_nil (cols : List (List Char)) (ts : List (List Char))
    (i : Nat) (mr mp : List (List Char × Nat)) (h : mr ≠ []) :
    (buildMapsAux cols i mr mp ts).1 ≠ [] := by
  induction ts generalizing i mr mp with
  | nil => exact h
  | cons x t ih =>
    by_cases h1 : x ∈ expectedResidualCols
    · rw [buildMapsAux_cons_res cols i mr mp x t h1]
      exact ih (i + 1) (upsert mr x i) mp (upsert_ne_nil mr x i)
    · by_cases h2 : x ∈ cols
      · rw [buildMapsAux_cons_rep cols i mr mp x t h1 h2]
        exact ih (i + 1) mr (upsert mp x i) h
      · rw [buildMapsAux_cons_skip cols i mr mp x t h1 h2]
        exact ih (i + 1) mr mp h

theorem buildMapsAux_rep_ne_nil (cols : List (List Char)) (ts : List (List Char))
    (i : Nat) (mr mp : List (List Char × Nat)) (h : mp ≠ []) :
    (buildMapsAux cols i mr mp ts).2 ≠ [] := by
  induction ts generalizing i mr mp with
  | nil => exact h
  | cons x t ih =>
    by_cases h1 : x ∈ expectedResidualCols
    · rw [buildMapsAux_cons_res cols i mr mp x t h1]
      exact ih (i + 1) (upsert mr x i) mp h
    · by_cases h2 : x ∈ cols
      · rw [buildMapsAux_cons_rep cols i mr mp x t h1 h2]
        exact ih (i + 1) mr (upsert mp x i) (upsert_ne_nil mp x i)
      · rw [buildMapsAux_cons_skip cols i mr mp x t h1 h2]
        exact ih (i + 1) mr mp h

theorem buildMapsAux_res_nil_iff (cols : List (List Char)) (ts : List (List Char))
    (i : Nat) (mr mp : List (List Char × Nat)) :
    (buildMapsAux cols i mr mp ts).1 = [] ↔ mr = [] ∧ ∀ x ∈ ts, x ∉ expectedResidualCols := by
  induction ts generalizing i mr mp with
  | nil =>
    constructor
    · intro h
      exact ⟨h, fun x hx => absurd hx (List.not_mem_nil x)⟩
    · intro h
      exact h.1
  | cons x t ih =>
    have hsplit : (∀ y ∈ x :: t, y ∉ expectedResidualCols) ↔
        (x ∉ expectedResidualCols ∧ ∀ y ∈ t, y ∉ expectedResidualCols) := by
      constructor
      · intro h
        exact ⟨h x (List.mem_cons.mpr (Or.inl rfl)), fun y hy => h y (List.mem_cons.mpr (Or.inr hy))⟩
      · rintro ⟨h1, h2⟩ y hy
        rcases List.mem_cons.mp hy with rfl | hy
        · exact h1
        · exact h2 y hy
    rw [hsplit]
    by_cases h1 : x ∈ expectedResidualCols
    · rw [buildMapsAux_cons_res cols i mr mp x t h1]
      constructor
      · intro h
        exact absurd h (buildMapsAux_res_ne_nil cols t (i + 1) _ mp (upsert_ne_nil mr x i))
      · rintro ⟨_, hx, _⟩
        exact absurd h1 hx
    · by_cases h2 : x ∈ cols
      · rw [buildMapsAux_cons_rep cols i mr mp x t h1 h2, ih]
        constructor
        · rintro ⟨ha, hb⟩; exact ⟨ha, h1, hb⟩
        · rintro ⟨ha, _, hb⟩; exact ⟨ha, hb⟩
      · rw [buildMapsAux_cons_skip cols i mr mp x t h1 h2, ih]
        constructor
        · rintro ⟨ha, hb⟩; exact ⟨ha, h1, hb⟩
        · rintro ⟨ha, _, hb⟩; exact ⟨ha, hb⟩

theorem buildMapsAux_rep_nil_iff (cols : List (List Char)) (ts : List (List Char))
    (i : Nat) (mr mp : List (List Char × Nat)) :
    (buildMapsAux cols i mr mp ts).2 = [] ↔
      mp = [] ∧ ∀ x ∈ ts, x ∈ expectedResidualCols ∨ x ∉ cols := by
  induction ts generalizing i mr mp with
  | nil =>
    constructor
    · intro h
      exact ⟨h, fun x hx => absurd hx (List.not_mem_nil x)⟩
    · intro h
      exact h.1
  | cons x t ih =>
    have hsplit : (∀ y ∈ x :: t, y ∈ expectedResidualCols ∨ y ∉ cols) ↔
        ((x ∈ expectedResidualCols ∨ x ∉ cols) ∧
          ∀ y ∈ t, y ∈ expectedResidualCols ∨ y ∉ cols) := by
      constructor
      · intro h
        exact ⟨h x (List.mem_cons.mpr (Or.inl rfl)), fun y hy => h y (List.mem_cons.mpr (Or.inr hy))⟩
      · rintro ⟨h1, h2⟩ y hy
        rcases List.mem_cons.mp hy with rfl | hy
        · exact h1
        · exact h2 y hy
    rw [hsplit]
    by_cases h1 : x ∈ expectedResidualCols
    · rw [buildMapsAux_cons_res cols i mr mp x t h1, ih]
      constructor
      · rintro ⟨ha, hb⟩; exact ⟨ha, Or.inl h1, hb⟩
      · rintro ⟨ha, _, hb⟩; exact ⟨ha, hb⟩
    · by_cases h2 : x ∈ cols
      · rw [buildMapsAux_cons_rep cols i mr mp x t h1 h2]
        constructor
        · intro h
          exact absurd h (buildMapsAux_rep_ne_nil cols t (i + 1) mr _ (upsert_ne_nil mp x i))
        · rintro ⟨_, hx, _⟩
          rcases hx with hx | hx
          · exact absurd hx h1
          · exact absurd h2 hx
      · rw [buildMapsAux_cons_skip cols i mr mp x t h1 h2, ih]
        constructor
        · rintro ⟨ha, hb⟩; exact ⟨ha, Or.inr h2, hb⟩
        · rintro ⟨ha, _, hb⟩; exact ⟨ha, hb⟩

theorem buildMapsAux_res_nodup (cols : List (List Char)) (ts : List (List Char))
    (i : Nat) (mr mp : List (List Char × Nat)) (h : (names mr).Nodup) :
    (names (buildMapsAux cols i mr mp ts).1).Nodup := by
  induction ts generalizing i mr mp with
  | nil => exact h
  | cons x t ih =>
    by_cases h1 : x ∈ expectedResidualCols
    · rw [buildMapsAux_cons_res cols i mr mp x t h1]
      exact ih (i + 1) _ mp (nodup_names_upsert mr x i h)
    · by_cases h2 : x ∈ cols
      · rw [buildMapsAux_cons_rep cols i mr mp x t h1 h2]
        exact ih (i + 1) mr _ h
      · rw [buildMapsAux_cons_skip cols i mr mp x t h1 h2]
        exact ih (i + 1) mr mp h

theorem buildMapsAux_rep_nodup (cols : List (List Char)) (ts : List (List Char))
    (i : Nat) (mr mp : List (List Char × Nat)) (h : (names mp).Nodup) :
    (names (buildMapsAux cols i mr mp ts).2).Nodup := by
  induction ts generalizing i mr mp with
  | nil => exact h
  | cons x t ih =>
    by_cases h1 : x ∈ expectedResidualCols
    · rw [buildMapsAux_cons_res cols i mr mp x t h1]
      exact ih (i + 1) _ mp h
    · by_cases h2 : x ∈ cols
      · rw [buildMapsAux_cons_rep cols i mr mp x t h1 h2]
        exact ih (i + 1) mr _ (nodup_names_upsert mp x i h)
      · rw [buildMapsAux_cons_skip cols i mr mp x t h1 h2]
        exact ih (i + 1) mr mp h

theorem buildMapsAux_rep_no_res (cols : List (List Char)) (ts : List (List Char))
    (i : Nat) (mr mp : List (List Char × Nat))
    (h : ∀ k ∈ names mp, k ∉ expectedResidualCols) :
    ∀ k ∈ names (buildMapsAux cols i mr mp ts).2, k ∉ expectedResidualCols := by
  induction ts generalizing i mr mp with
  | nil => exact h
  | cons x t ih =>
    by_cases h1 : x ∈ expectedResidualCols
    · rw [buildMapsAux_cons_res cols i mr mp x t h1]
      exact ih (i + 1) _ mp h
    · by_cases h2 : x ∈ cols
      · rw [buildMapsAux_cons_rep cols i mr mp x t h1 h2]
        refine ih (i + 1) mr _ ?_
        intro k hk
        rcases (mem_names_upsert mp x k i).mp hk with hk | rfl
        · exact h k hk
        · exact h1
      · rw [buildMapsAux_cons_skip cols i mr mp x t h1 h2]
        exact ih (i + 1) mr mp h

/-! ### Branch equations for the row and line dispatch -/

theorem reportPhase_nogate (cols : List (List Char)) (st2 : ParseState) (toks : List (List Char))
    (n : Nat) (h : cols.headD [] = []) : reportPhase cols st2 toks n = st2 := by
  simp only [reportPhase]
  rw [if_pos h]

theorem reportPhase_nolayout (cols : List (List Char)) (st2 : ParseState) (toks : List (List Char))
    (n : Nat) (h1 : ¬ cols.headD [] = [])
    (h2 : findVal st2.reportLayout (cols.headD []) = none) :
    reportPhase cols st2 toks n = st2 := by
  simp only [reportPhase]
  rw [if_neg h1, h2]

theorem reportPhase_nosample (cols : List (List Char)) (st2 : ParseState) (toks : List (List Char))
    (n : Nat) (c : Nat) (h1 : ¬ cols.headD [] = [])
    (h2 : findVal st2.reportLayout (cols.headD []) = some c)
    (h3 : ¬ (c < toks.length ∧ toks.getD c [] ≠ placeholderTok ∧ toks.getD c [] ≠ [])) :
    reportPhase cols st2 toks n = st2 := by
  simp only [reportPhase]
  rw [if_neg h1, h2]
  exact if_neg h3

theorem reportPhase_sample (cols : List (List Char)) (st2 : ParseState) (toks : List (List Char))
    (n : Nat) (c : Nat) (h1 : ¬ cols.headD [] = [])
    (h2 : findVal st2.reportLayout (cols.headD []) = some c)
    (h3 : c < toks.length ∧ toks.getD c [] ≠ placeholderTok ∧ toks.getD c [] ≠ []) :
    reportPhase cols st2 toks n =
      (if (rowFieldLoop st2.reportLayout st2.reports toks).2 = false then
        reconcile { st2 with
          reportTimes := st2.reportTimes ++ [st2.currentTime]
          reportIterations := st2.reportIterations ++ [n]
          reports := (rowFieldLoop st2.reportLayout st2.reports toks).1 }
      else { st2 with
        reportTimes := st2.reportTimes ++ [st2.currentTime]
        reportIterations := st2.reportIterations ++ [n]
        reports := (rowFieldLoop st2.reportLayout st2.reports toks).1 }) := by
  simp only [reportPhase]
  rw [if_neg h1, h2]
  exact if_pos h3

theorem rowBody_fail (cols : List (List Char)) (st : ParseState) (toks : List (List Char))
    (h : (rowFieldLoop st.residualLayout st.residuals toks).2 = false) :
    rowBody cols st toks = reconcile { st with
      iterations := st.iterations ++ [digitsToNat (toks.headD [])]
      residuals := (rowFieldLoop st.residualLayout st.residuals toks).1 } := by
  simp only [rowBody]
  rw [if_pos h]

theorem rowBody_ok (cols : List (List Char)) (st : ParseState) (toks : List (List Char))
    (h : (rowFieldLoop st.residualLayout st.residuals toks).2 = true) :
    rowBody cols st toks = reportPhase cols { st with
      iterations := st.iterations ++ [digitsToNat (toks.headD [])]
      residuals := (rowFieldLoop st.residualLayout st.residuals toks).1 } toks
      (digitsToNat (toks.headD [])) := by
  simp only [rowBody]
  rw [if_neg (by rw [h]; exact fun hh => Bool.noConfusion hh)]

theorem processRow_skip (cols : List (List Char)) (st : ParseState) (l : List Char)
    (h : ((reSplitWs 1 (pstrip l)).isEmpty || !pyIsDigit ((reSplitWs 1 (pstrip l)).headD [])) = true) :
    processRow cols st l = st := by
  simp only [processRow]
  rw [if_pos h]

theorem processRow_go (cols : List (List Char)) (st : ParseState) (l : List Char)
    (h : ¬ ((reSplitWs 1 (pstrip l)).isEmpty || !pyIsDigit ((reSplitWs 1 (pstrip l)).headD [])) = true) :
    processRow cols st l = rowBody cols st (reSplitWs 1 (pstrip l)) := by
  simp only [processRow]
  rw [if_neg h]

theorem matchTimestep_nil : matchTimestep [] = none := rfl

theorem processLine_blank (cols : List (List Char)) (st : ParseState) (l : List Char)
    (h : (pstrip l).isEmpty = true) : processLine cols st l = Except.ok st := by
  simp only [processLine]
  rw [if_pos h]

theorem processLine_marker (cols : List (List Char)) (st : ParseState) (l : List Char)
    (cap : List Char) (t : PyFloat) (h1 : matchTimestep (pstrip l) = some cap)
    (h2 : parseFloat cap = some t) :
    processLine cols st l = Except.ok { st with currentTime := t, dataStarted := true } := by
  have hne : ¬ (pstrip l).isEmpty = true := by
    intro hh
    rw [List.isEmpty_iff] at hh
    rw [hh, matchTimestep_nil] at h1
    exact Option.noConfusion h1
  simp only [processLine]
  rw [if_neg hne]
  simp only [h1, h2]

theorem processLine_marker_err (cols : List (List Char)) (st : ParseState) (l : List Char)
    (cap : List Char) (h1 : matchTimestep (pstrip l) = some cap)
    (h2 : parseFloat cap = none) :
    processLine cols st l = Except.error () := by
  have hne : ¬ (pstrip l).isEmpty = true := by
    intro hh
    rw [List.isEmpty_iff] at hh
    rw [hh, matchTimestep_nil] at h1
    exact Option.noConfusion h1
  simp only [processLine]
  rw [if_neg hne]
  simp only [h1, h2]

theorem processLine_header (cols : List (List Char)) (st : ParseState) (l : List Char)
    (h0 : ¬ (pstrip l).isEmpty = true) (h1 : matchTimestep (pstrip l) = none)
    (h2 : isHeaderLine cols (pstrip l) = true) :
    processLine cols st l = Except.ok (applyHeader cols st (pstrip l)) := by
  simp only [processLine]
  rw [if_neg h0, h1]
  exact if_pos h2

theorem processLine_data (cols : List (List Char)) (st : ParseState) (l : List Char)
    (h0 : ¬ (pstrip l).isEmpty = true) (h1 : matchTimestep (pstrip l) = none)
    (h2 : ¬ isHeaderLine cols (pstrip l) = true)
    (h3 : (st.headerFound && st.dataStarted && dataRowGate (pstrip l)) = true) :
    processLine cols st l = Except.ok (processRow cols st (pstrip l)) := by
  simp only [processLine]
  rw [if_neg h0, h1]
  rw [if_neg h2]
  exact if_pos h3

theorem processLine_other (cols : List (List Char)) (st : ParseState) (l : List Char)
    (h0 : ¬ (pstrip l).isEmpty = true) (h1 : matchTimestep (pstrip l) = none)
    (h2 : ¬ isHeaderLine cols (pstrip l) = true)
    (h3 : ¬ (st.headerFound && st.dataStarted && dataRowGate (pstrip l)) = true) :
    processLine cols st l = Except.ok st := by
  simp only [processLine]
  rw [if_neg h0, h1]
  rw [if_neg h2]
  exact if_neg h3

/-! ### Scan equations -/

theorem scanLines_nil (cols : List (List Char)) (st : ParseState) :
    scanLines cols st [] = Except.ok st := rfl

theorem scanLines_cons_ok (cols : List (List Char)) (st stm : ParseState) (l : List Char)
    (ls : List (List Char)) (hp : processLine cols st l = Except.ok stm) :
    scanLines cols st (l :: ls) = scanLines cols stm ls := by
  simp only [scanLines, hp]

theorem scanLines_cons_err (cols : List (List Char)) (st : ParseState) (l : List Char)
    (ls : List (List Char)) (e : Unit) (hp : processLine cols st l = Except.error e) :
    scanLines cols st (l :: ls) = Except.error e := by
  simp only [scanLines, hp]

theorem scanLines_append (cols : List (List Char)) (a b : List (List Char)) (st : ParseState) :
    scanLines cols st (a ++ b) =
      match scanLines cols st a with
      | Except.ok stm => scanLines cols stm b
      | Except.error e => Except.error e := by
  induction a generalizing st with
  | nil => rfl
  | cons l t ih =>
    cases hp : processLine cols st l with
    | ok stm =>
      rw [List.cons_append, scanLines_cons_ok cols st stm l (t ++ b) hp,
        scanLines_cons_ok cols st stm l t hp, ih stm]
    | error e =>
      rw [List.cons_append, scanLines_cons_err cols st l (t ++ b) e hp,
        scanLines_cons_err cols st l t e hp]

/-! ### Initial-dictionary lemmas -/

theorem findVal_map_nilpair (ks : List (List Char)) (k : List Char) :
    findVal (ks.map (fun k0 => (k0, ([] : List PyFloat)))) k = none ∨
      findVal (ks.map (fun k0 => (k0, ([] : List PyFloat)))) k = some [] := by
  induction ks with
  | nil => exact Or.inl rfl
  | cons c t ih =>
    by_cases h : c = k
    · right
      show (if c = k then some ([] : List PyFloat) else _) = some []
      rw [if_pos h]
    · show (if c = k then some ([] : List PyFloat) else findVal _ k) = none ∨
        (if c = k then some ([] : List PyFloat) else findVal _ k) = some []
      rw [if_neg h]
      exact ih

theorem names_map_nilpair (ks : List (List Char)) :
    names (ks.map (fun k0 => (k0, ([] : List PyFloat)))) = ks := by
  induction ks with
  | nil => rfl
  | cons c t ih =>
    show c :: names (t.map (fun k0 => (k0, ([] : List PyFloat)))) = c :: t
    rw [ih]

theorem vlen_eq_zero_of_opts (d : List (List Char × List PyFloat)) (k : List Char)
    (h : findVal d k = none ∨ findVal d k = some []) : vlen d k = 0 := by
  rcases h with h | h <;> unfold vlen <;> rw [h] <;> rfl

theorem foldl_upsert_vals (cols : List (List Char)) (acc : List (List Char × List PyFloat))
    (hacc : ∀ k, findVal acc k = none ∨ findVal acc k = some [])
    (k : List Char) :
    findVal (List.foldl (fun d k0 => upsert d k0 []) acc cols) k = none ∨
      findVal (List.foldl (fun d k0 => upsert d k0 []) acc cols) k = some [] := by
  induction cols generalizing acc with
  | nil => exact hacc k
  | cons c t ih =>
    refine ih (upsert acc c []) ?_
    intro j
    by_cases h : j = c
    · right
      rw [h, findVal_upsert_self]
    · rw [findVal_upsert_ne acc c j [] h]
      exact hacc j

theorem initReports_vals (cols : List (List Char)) (k : List Char) :
    findVal (initReports cols) k = none ∨ findVal (initReports cols) k = some [] :=
  foldl_upsert_vals cols [] (fun _ => Or.inl rfl) k

theorem initReports_vlen (cols : List (List Char)) (k : List Char) :
    vlen (initReports cols) k = 0 :=
  vlen_eq_zero_of_opts _ k (initReports_vals cols k)

/-! ### The scan invariant -/

/-- Invariant maintained by every line of the scan: the residual map keeps
exactly the seven expected keys and each of its lists stays no longer than
`iterations`; the report map keeps the requested keys, its lists stay no
longer than the (always equal-length) report iteration/time sequences; the
layouts have distinct keys; the report layout never contains a residual
name, so requested fields that collide with residual names never receive a
value, and when the gating field is a residual name no sample is ever
taken. -/
structure Inv (cols : List (List Char)) (st : ParseState) : Prop where
  resNames : names st.residuals = expectedResidualCols
  resLen : ∀ k, vlen st.residuals k ≤ st.iterations.length
  repNames : names st.reports = names (initReports cols)
  timesLen : st.reportTimes.length = st.reportIterations.length
  repLen : ∀ k, vlen st.reports k ≤ st.reportIterations.length
  resLayNodup : (names st.residualLayout).Nodup
  repLayNodup : (names st.reportLayout).Nodup
  repLayNoRes : ∀ k ∈ names st.reportLayout, k ∉ expectedResidualCols
  repSeven : ∀ k ∈ expectedResidualCols, vlen st.reports k = 0
  gateSeven : cols.headD [] ∈ expectedResidualCols →
    st.reportIterations = [] ∧ st.reportTimes = []

theorem initState_inv (cols : List (List Char)) : Inv cols (initState cols) := by
  constructor
  · exact names_map_nilpair expectedResidualCols
  · intro k
    have h := vlen_eq_zero_of_opts _ k (findVal_map_nilpair expectedResidualCols k)
    exact le_of_eq h
  · rfl
  · rfl
  · intro k
    exact le_of_eq (initReports_vlen cols k)
  · exact List.nodup_nil
  · exact List.nodup_nil
  · intro k hk
    exact absurd hk (List.not_mem_nil k)
  · intro k _
    exact initReports_vlen cols k
  · intro _
    exact ⟨rfl, rfl⟩

theorem reconcile_inv (cols : List (List Char)) (st : ParseState) (hinv : Inv cols st) :
    Inv cols (reconcile st) := by
  have rf := reconcile_frame st
  constructor
  · rw [reconcile_names]
    exact hinv.resNames
  · intro k
    rw [rf.1]
    exact reconcile_vlen_le st hinv.resLen k
  · rw [rf.2.2.2.1]
    exact hinv.repNames
  · rw [rf.2.1, rf.2.2.1]
    exact hinv.timesLen
  · intro k
    rw [rf.2.2.2.1, rf.2.2.1]
    exact hinv.repLen k
  · rw [rf.2.2.2.2.1]
    exact hinv.resLayNodup
  · rw [rf.2.2.2.2.2.1]
    exact hinv.repLayNodup
  · rw [rf.2.2.2.2.2.1]
    exact hinv.repLayNoRes
  · intro k hk
    rw [rf.2.2.2.1]
    exact hinv.repSeven k hk
  · intro hg
    rw [rf.2.1, rf.2.2.1]
    exact hinv.gateSeven hg

theorem applyHeader_inv (cols : List (List Char)) (st : ParseState) (l : List Char)
    (hinv : Inv cols st) : Inv cols (applyHeader cols st l) := by
  constructor
  · exact hinv.resNames
  · exact hinv.resLen
  · exact hinv.repNames
  · exact hinv.timesLen
  · exact hinv.repLen
  · show (names (if (buildMapsAux cols 0 [] [] (headerTokens l)).1 ≠ [] then
        (buildMapsAux cols 0 [] [] (headerTokens l)).1 else st.residualLayout)).Nodup
    by_cases h : (buildMapsAux cols 0 [] [] (headerTokens l)).1 ≠ []
    · rw [if_pos h]
      exact buildMapsAux_res_nodup cols (headerTokens l) 0 [] [] List.nodup_nil
    · rw [if_neg h]
      exact hinv.resLayNodup
  · show (names (if (buildMapsAux cols 0 [] [] (headerTokens l)).2 ≠ [] then
        (buildMapsAux cols 0 [] [] (headerTokens l)).2 else st.reportLayout)).Nodup
    by_cases h : (buildMapsAux cols 0 [] [] (headerTokens l)).2 ≠ []
    · rw [if_pos h]
      exact buildMapsAux_rep_nodup cols (headerTokens l) 0 [] [] List.nodup_nil
    · rw [if_neg h]
      exact hinv.repLayNodup
  · show ∀ k ∈ names (if (buildMapsAux cols 0 [] [] (headerTokens l)).2 ≠ [] then
        (buildMapsAux cols 0 [] [] (headerTokens l)).2 else st.reportLayout), _
    by_cases h : (buildMapsAux cols 0 [] [] (headerTokens l)).2 ≠ []
    · rw [if_pos h]
      exact buildMapsAux_rep_no_res cols (headerTokens l) 0 [] []
        (fun k hk => absurd hk (List.not_mem_nil k))
    · rw [if_neg h]
      exact hinv.repLayNoRes
  · exact hinv.repSeven
  · exact hinv.gateSeven

theorem sample_state_inv (cols : List (List Char)) (st2 : ParseState) (toks : List (List Char))
    (n : Nat) (hinv : Inv cols st2) (hg : cols.headD [] ∉ expectedResidualCols) :
    Inv cols { st2 with
      reportTimes := st2.reportTimes ++ [st2.currentTime]
      reportIterations := st2.reportIterations ++ [n]
      reports := (rowFieldLoop st2.reportLayout st2.reports toks).1 } := by
  constructor
  · exact hinv.resNames
  · exact hinv.resLen
  · show names (rowFieldLoop st2.reportLayout st2.reports toks).1 = _
    rw [rowFieldLoop_names]
    exact hinv.repNames
  · show (st2.reportTimes ++ [st2.currentTime]).length = (st2.reportIterations ++ [n]).length
    rw [List.length_append, List.length_append, hinv.timesLen]
    rfl
  · intro k
    show vlen (rowFieldLoop st2.reportLayout st2.reports toks).1 k ≤
      (st2.reportIterations ++ [n]).length
    have h1 := rowFieldLoop_vlen_le st2.reportLayout st2.reports toks hinv.repLayNodup k
    have h2 := hinv.repLen k
    rw [List.length_append]
    by_cases hm : k ∈ names st2.reportLayout
    · rw [if_pos hm] at h1
      simp only [List.length_singleton]
      omega
    · rw [if_neg hm] at h1
      simp only [List.length_singleton]
      omega
  · exact hinv.resLayNodup
  · exact hinv.repLayNodup
  · exact hinv.repLayNoRes
  · intro k hk
    show vlen (rowFieldLoop st2.reportLayout st2.reports toks).1 k = 0
    have hnm : k ∉ names st2.reportLayout := fun hmem => hinv.repLayNoRes k hmem hk
    unfold vlen
    rw [rowFieldLoop_untouched st2.reportLayout st2.reports toks k hnm]
    exact hinv.repSeven k hk
  · intro hmem
    exact absurd hmem hg

theorem reportPhase_inv (cols : List (List Char)) (st2 : ParseState) (toks : List (List Char))
    (n : Nat) (hinv : Inv cols st2) : Inv cols (reportPhase cols st2 toks n) := by
  by_cases h1 : cols.headD [] = []
  · rw [reportPhase_nogate cols st2 toks n h1]
    exact hinv
  · cases h2 : findVal st2.reportLayout (cols.headD []) with
    | none =>
      rw [reportPhase_nolayout cols st2 toks n h1 h2]
      exact hinv
    | some c =>
      by_cases h3 : c < toks.length ∧ toks.getD c [] ≠ placeholderTok ∧ toks.getD c [] ≠ []
      · rw [reportPhase_sample cols st2 toks n c h1 h2 h3]
        have hg : cols.headD [] ∉ expectedResidualCols :=
          hinv.repLayNoRes _ (mem_names_of_findVal_eq_some _ _ _ h2)
        have hcore := sample_state_inv cols st2 toks n hinv hg
        by_cases hok : (rowFieldLoop st2.reportLayout st2.reports toks).2 = false
        · rw [if_pos hok]
          exact reconcile_inv cols _ hcore
        · rw [if_neg hok]
          exact hcore
      · rw [reportPhase_nosample cols st2 toks n c h1 h2 h3]
        exact hinv

theorem residual_state_inv (cols : List (List Char)) (st : ParseState) (toks : List (List Char))
    (hinv : Inv cols st) :
    Inv cols { st with
      iterations := st.iterations ++ [digitsToNat (toks.headD [])]
      residuals := (rowFieldLoop st.residualLayout st.residuals toks).1 } := by
  constructor
  · show names (rowFieldLoop st.residualLayout st.residuals toks).1 = _
    rw [rowFieldLoop_names]
    exact hinv.resNames
  · intro k
    show vlen (rowFieldLoop st.residualLayout st.residuals toks).1 k ≤
      (st.iterations ++ [digitsToNat (toks.headD [])]).length
    have h1 := rowFieldLoop_vlen_le st.residualLayout st.residuals toks hinv.resLayNodup k
    have h2 := hinv.resLen k
    rw [List.length_append]
    by_cases hm : k ∈ names st.residualLayout
    · rw [if_pos hm] at h1
      simp only [List.length_singleton]
      omega
    · rw [if_neg hm] at h1
      simp only [List.length_singleton]
      omega
  · exact hinv.repNames
  · exact hinv.timesLen
  · exact hinv.repLen
  · exact hinv.resLayNodup
  · exact hinv.repLayNodup
  · exact hinv.repLayNoRes
  · exact hinv.repSeven
  · exact hinv.gateSeven

theorem rowBody_inv (cols : List (List Char)) (st : ParseState) (toks : List (List Char))
    (hinv : Inv cols st) : Inv cols (rowBody cols st toks) := by
  have hst1 := residual_state_inv cols st toks hinv
  by_cases h : (rowFieldLoop st.residualLayout st.residuals toks).2 = false
  · rw [rowBody_fail cols st toks h]
    exact reconcile_inv cols _ hst1
  · have h2 : (rowFieldLoop st.residualLayout st.residuals toks).2 = true := by
      revert h
      cases (rowFieldLoop st.residualLayout st.residuals toks).2 <;> simp
    rw [rowBody_ok cols st toks h2]
    exact reportPhase_inv cols _ toks _ hst1

theorem processRow_inv (cols : List (List Char)) (st : ParseState) (l : List Char)
    (hinv : Inv cols st) : Inv cols (processRow cols st l) := by
  by_cases h : ((reSplitWs 1 (pstrip l)).isEmpty ||
      !pyIsDigit ((reSplitWs 1 (pstrip l)).headD [])) = true
  · rw [processRow_skip cols st l h]
    exact hinv
  · rw [processRow_go cols st l h]
    exact rowBody_inv cols st _ hinv

theorem processLine_inv (cols : List (List Char)) (st st1 : ParseState) (l : List Char)
    (hinv : Inv cols st) (h : processLine cols st l = Except.ok st1) : Inv cols st1 := by
  by_cases h0 : (pstrip l).isEmpty = true
  · rw [processLine_blank cols st l h0] at h
    cases h
    exact hinv
  · cases hm : matchTimestep (pstrip l) with
    | some cap =>
      cases hp : parseFloat cap with
      | some t =>
        rw [processLine_marker cols st l cap t hm hp] at h
        cases h
        exact ⟨hinv.resNames, hinv.resLen, hinv.repNames, hinv.timesLen, hinv.repLen,
          hinv.resLayNodup, hinv.repLayNodup, hinv.repLayNoRes, hinv.repSeven, hinv.gateSeven⟩
      | none =>
        rw [processLine_marker_err cols st l cap hm hp] at h
        exact Except.noConfusion h
    | none =>
      by_cases h2 : isHeaderLine cols (pstrip l) = true
      · rw [processLine_header cols st l h0 hm h2] at h
        cases h
        exact applyHeader_inv cols st _ hinv
      · by_cases h3 : (st.headerFound && st.dataStarted && dataRowGate (pstrip l)) = true
        · rw [processLine_data cols st l h0 hm h2 h3] at h
          cases h
          exact processRow_inv cols st _ hinv
        · rw [processLine_other cols st l h0 hm h2 h3] at h
          cases h
          exact hinv

theorem scanLines_inv (cols : List (List Char)) (ls : List (List Char)) (st st1 : ParseState)
    (hinv : Inv cols st) (h : scanLines cols st ls = Except.ok st1) : Inv cols st1 := by
  induction ls generalizing st with
  | nil =>
    rw [scanLines_nil] at h
    cases h
    exact hinv
  | cons l t ih =>
    cases hp : processLine cols st l with
    | ok stm =>
      rw [scanLines_cons_ok cols st stm l t hp] at h
      exact ih stm (processLine_inv cols st stm l hinv hp) h
    | error e =>
      rw [scanLines_cons_err cols st l t e hp] at h
      exact Except.noConfusion h

/-! ### Frame lemmas and marker-free scans -/

theorem padOnce_ge (n : Nat) (d : List (List Char × List PyFloat)) (ks : List (List Char))
    (k : List Char) (h : n ≤ vlen d k) :
    findVal (padOnce n d ks) k = findVal d k := by
  induction ks generalizing d with
  | nil => rfl
  | cons k0 rest ih =>
    by_cases hk : k0 = k
    · subst hk
      rw [padOnce_cons_ge n d k0 rest (by omega)]
      exact ih d h
    · by_cases hc : vlen d k0 < n
      · rw [padOnce_cons_lt n d k0 rest hc]
        have h2 : vlen (appendAt d k0 PyFloat.nan) k = vlen d k :=
          vlen_appendAt_ne d k0 k PyFloat.nan (fun hh => hk hh.symm)
        rw [ih (appendAt d k0 PyFloat.nan) (by omega),
          findVal_appendAt_ne d k0 k PyFloat.nan (fun hh => hk hh.symm)]
      · rw [padOnce_cons_ge n d k0 rest hc]
        exact ih d h

theorem reportPhase_frame (cols : List (List Char)) (st2 : ParseState) (toks : List (List Char))
    (n : Nat) :
    (reportPhase cols st2 toks n).currentTime = st2.currentTime ∧
    (reportPhase cols st2 toks n).dataStarted = st2.dataStarted ∧
    (reportPhase cols st2 toks n).headerFound = st2.headerFound ∧
    (reportPhase cols st2 toks n).iterations = st2.iterations ∧
    ((reportPhase cols st2 toks n).reportTimes = st2.reportTimes ∨
      (reportPhase cols st2 toks n).reportTimes = st2.reportTimes ++ [st2.currentTime]) := by
  by_cases h1 : cols.headD [] = []
  · rw [reportPhase_nogate cols st2 toks n h1]
    exact ⟨rfl, rfl, rfl, rfl, Or.inl rfl⟩
  · cases h2 : findVal st2.reportLayout (cols.headD []) with
    | none =>
      rw [reportPhase_nolayout cols st2 toks n h1 h2]
      exact ⟨rfl, rfl, rfl, rfl, Or.inl rfl⟩
    | some c =>
      by_cases h3 : c < toks.length ∧ toks.getD c [] ≠ placeholderTok ∧ toks.getD c [] ≠ []
      · rw [reportPhase_sample cols st2 toks n c h1 h2 h3]
        by_cases hok : (rowFieldLoop st2.reportLayout st2.reports toks).2 = false
        · rw [if_pos hok]
          have rf := reconcile_frame { st2 with
            reportTimes := st2.reportTimes ++ [st2.currentTime]
            reportIterations := st2.reportIterations ++ [n]
            reports := (rowFieldLoop st2.reportLayout st2.reports toks).1 }
          exact ⟨rf.2.2.2.2.2.2.1, rf.2.2.2.2.2.2.2.2, rf.2.2.2.2.2.2.2.1, rf.1, Or.inr rf.2.1⟩
        · rw [if_neg hok]
          exact ⟨rfl, rfl, rfl, rfl, Or.inr rfl⟩
      · rw [reportPhase_nosample cols st2 toks n c h1 h2 h3]
        exact ⟨rfl, rfl, rfl, rfl, Or.inl rfl⟩

theorem processRow_frame (cols : List (List Char)) (st : ParseState) (l : List Char) :
    (processRow cols st l).currentTime = st.currentTime ∧
    (processRow cols st l).dataStarted = st.dataStarted ∧
    (processRow cols st l).headerFound = st.headerFound ∧
    ((processRow cols st l).reportTimes = st.reportTimes ∨
      (processRow cols st l).reportTimes = st.reportTimes ++ [st.currentTime]) := by
  by_cases h : ((reSplitWs 1 (pstrip l)).isEmpty ||
      !pyIsDigit ((reSplitWs 1 (pstrip l)).headD [])) = true
  · rw [processRow_skip cols st l h]
    exact ⟨rfl, rfl, rfl, Or.inl rfl⟩
  · rw [processRow_go cols st l h]
    by_cases hr : (rowFieldLoop st.residualLayout st.residuals (reSplitWs 1 (pstrip l))).2 = false
    · rw [rowBody_fail cols st _ hr]
      have rf := reconcile_frame { st with
        iterations := st.iterations ++ [digitsToNat ((reSplitWs 1 (pstrip l)).headD [])]
        residuals := (rowFieldLoop st.residualLayout st.residuals (reSplitWs 1 (pstrip l))).1 }
      exact ⟨rf.2.2.2.2.2.2.1, rf.2.2.2.2.2.2.2.2, rf.2.2.2.2.2.2.2.1, Or.inl rf.2.1⟩
    · have hr2 : (rowFieldLoop st.residualLayout st.residuals (reSplitWs 1 (pstrip l))).2 = true := by
        revert hr
        cases (rowFieldLoop st.residualLayout st.residuals (reSplitWs 1 (pstrip l))).2 <;> simp
      rw [rowBody_ok cols st _ hr2]
      have rp := reportPhase_frame cols { st with
        iterations := st.iterations ++ [digitsToNat ((reSplitWs 1 (pstrip l)).headD [])]
        residuals := (rowFieldLoop st.residualLayout st.residuals (reSplitWs 1 (pstrip l))).1 }
        (reSplitWs 1 (pstrip l)) (digitsToNat ((reSplitWs 1 (pstrip l)).headD []))
      exact ⟨rp.1, rp.2.1, rp.2.2.1, rp.2.2.2.2⟩

theorem processLine_nomarker (cols : List (List Char)) (st : ParseState) (l : List Char)
    (hm : matchTimestep (pstrip l) = none) :
    ∃ st1, processLine cols st l = Except.ok st1 ∧
      st1.currentTime = st.currentTime ∧ st1.dataStarted = st.dataStarted ∧
      (st1.reportTimes = st.reportTimes ∨ st1.reportTimes = st.reportTimes ++ [st.currentTime]) ∧
      (st.dataStarted = false →
        st1.iterations = st.iterations ∧ st1.reportIterations = st.reportIterations ∧
        st1.reportTimes = st.reportTimes) := by
  by_cases h0 : (pstrip l).isEmpty = true
  · exact ⟨st, processLine_blank cols st l h0, rfl, rfl, Or.inl rfl, fun _ => ⟨rfl, rfl, rfl⟩⟩
  · by_cases h2 : isHeaderLine cols (pstrip l) = true
    · exact ⟨applyHeader cols st (pstrip l), processLine_header cols st l h0 hm h2,
        rfl, rfl, Or.inl rfl, fun _ => ⟨rfl, rfl, rfl⟩⟩
    · by_cases h3 : (st.headerFound && st.dataStarted && dataRowGate (pstrip l)) = true
      · refine ⟨processRow cols st (pstrip l), processLine_data cols st l h0 hm h2 h3,
          ?_, ?_, ?_, ?_⟩
        · exact (processRow_frame cols st (pstrip l)).1
        · exact (processRow_frame cols st (pstrip l)).2.1
        · exact (processRow_frame cols st (pstrip l)).2.2.2
        · intro hds
          rw [hds] at h3
          simp at h3
      · exact ⟨st, processLine_other cols st l h0 hm h2 h3, rfl, rfl, Or.inl rfl,
          fun _ => ⟨rfl, rfl, rfl⟩⟩

theorem scanLines_nomarker (cols : List (List Char)) (ls : List (List Char)) :
    ∀ st : ParseState, (∀ l ∈ ls, matchTimestep (pstrip l) = none) →
    ∃ st1, scanLines cols st ls = Except.ok st1 ∧
      st1.currentTime = st.currentTime ∧ st1.dataStarted = st.dataStarted ∧
      (∃ nw, st1.reportTimes = st.reportTimes ++ nw ∧ ∀ x ∈ nw, x = st.currentTime) ∧
      (st.dataStarted = false →
        st1.iterations = st.iterations ∧ st1.reportIterations = st.reportIterations ∧
        st1.reportTimes = st.reportTimes) := by
  induction ls with
  | nil =>
    intro st _
    exact ⟨st, rfl, rfl, rfl, ⟨[], (List.append_nil _).symm,
      fun x hx => absurd hx (List.not_mem_nil x)⟩, fun _ => ⟨rfl, rfl, rfl⟩⟩
  | cons l t ih =>
    intro st hm
    have hml : matchTimestep (pstrip l) = none := hm l (List.mem_cons.mpr (Or.inl rfl))
    have hmt : ∀ x ∈ t, matchTimestep (pstrip x) = none :=
      fun x hx => hm x (List.mem_cons.mpr (Or.inr hx))
    rcases processLine_nomarker cols st l hml with ⟨stm, hpl, hct, hds, hrt, hfz⟩
    rcases ih stm hmt with ⟨st1, hscan, hct1, hds1, ⟨nw, hnw, hnwall⟩, hfz1⟩
    refine ⟨st1, ?_, ?_, ?_, ?_, ?_⟩
    · rw [scanLines_cons_ok cols st stm l t hpl]
      exact hscan
    · rw [hct1, hct]
    · rw [hds1, hds]
    · rcases hrt with hrt | hrt
      · exact ⟨nw, by rw [hnw, hrt], fun x hx => by rw [hnwall x hx, hct]⟩
      · refine ⟨st.currentTime :: nw, ?_, ?_⟩
        · rw [hnw, hrt, List.append_assoc]
          rfl
        · intro x hx
          rcases List.mem_cons.mp hx with rfl | hx
          · rfl
          · rw [hnwall x hx, hct]
    · intro hdst
      rcases hfz hdst with ⟨hi, hri, hrtz⟩
      have hdsm : stm.dataStarted = false := by rw [hds, hdst]
      rcases hfz1 hdsm with ⟨hi1, hri1, hrt1⟩
      exact ⟨by rw [hi1, hi], by rw [hri1, hri], by rw [hrt1, hrtz]⟩

/-! ### Equations for the top-level parse and finalize -/

theorem parse_none_eq (cols : List (List Char)) :
    parse_starccm_logfile none cols = emptyResult := rfl

theorem parse_err_eq (cols : List (List Char)) (text : List Char) (e : Unit)
    (h : scanLines cols (initState cols) (splitLines text) = Except.error e) :
    parse_starccm_logfile (some text) cols = emptyResult := by
  simp only [parse_starccm_logfile, h]

theorem parse_ok_eq (cols : List (List Char)) (text : List Char) (st : ParseState)
    (h : scanLines cols (initState cols) (splitLines text) = Except.ok st) :
    parse_starccm_logfile (some text) cols = finalize st := by
  simp only [parse_starccm_logfile, h]

theorem finalize_nilcase (st : ParseState) (h : st.iterations = []) :
    finalize st = ⟨st.iterations, st.residuals, st.reportIterations, st.reportTimes, st.reports⟩ := by
  unfold finalize
  rw [if_pos h]

theorem finalize_poscase (st : ParseState) (h : ¬ st.iterations = []) :
    finalize st = ⟨st.iterations,
      st.residuals.map (fun e => (e.1, padTrunc e.2 st.iterations.length)),
      st.reportIterations, st.reportTimes, st.reports⟩ := by
  unfold finalize
  rw [if_neg h]

theorem padTrunc_length (v : List PyFloat) (n : Nat) : (padTrunc v n).length = n := by
  unfold padTrunc
  rw [List.length_take, List.length_append, List.length_replicate]
  omega

theorem findVal_mapSnd (g : List PyFloat → List PyFloat) (d : List (List Char × List PyFloat))
    (k : List Char) :
    findVal (d.map (fun e => (e.1, g e.2))) k = (findVal d k).map g := by
  induction d with
  | nil => rfl
  | cons e t ih =>
    by_cases h : e.1 = k
    · show (if e.1 = k then some (g e.2) else _) = _
      rw [if_pos h]
      show some (g e.2) = (if e.1 = k then some e.2 else findVal t k).map g
      rw [if_pos h]
      rfl
    · show (if e.1 = k then some (g e.2) else findVal (t.map _) k) = _
      rw [if_neg h, ih]
      show (findVal t k).map g = (if e.1 = k then some e.2 else findVal t k).map g
      rw [if_neg h]

theorem names_mapSnd (g : List PyFloat → List PyFloat) (d : List (List Char × List PyFloat)) :
    names (d.map (fun e => (e.1, g e.2))) = names d := by
  induction d with
  | nil => rfl
  | cons e t ih =>
    show e.1 :: names (t.map _) = e.1 :: names t
    rw [ih]

theorem findVal_map_padTrunc (n : Nat) (d : List (List Char × List PyFloat)) (k : List Char) :
    findVal (d.map (fun e => (e.1, padTrunc e.2 n))) k =
      (findVal d k).map (fun v => padTrunc v n) :=
  findVal_mapSnd (fun v => padTrunc v n) d k

theorem names_map_padTrunc (n : Nat) (d : List (List Char × List PyFloat)) :
    names (d.map (fun e => (e.1, padTrunc e.2 n))) = names d :=
  names_mapSnd (fun v => padTrunc v n) d

theorem mem_names_foldl_upsert (cols : List (List Char)) (acc : List (List Char × List PyFloat))
    (j : List Char) :
    j ∈ names (List.foldl (fun d k0 => upsert d k0 []) acc cols) ↔
      j ∈ names acc ∨ j ∈ cols := by
  induction cols generalizing acc with
  | nil =>
    constructor
    · exact fun h => Or.inl h
    · rintro (h | h)
      · exact h
      · exact absurd h (List.not_mem_nil j)
  | cons c t ih =>
    show j ∈ names (List.foldl _ (upsert acc c []) t) ↔ _
    rw [ih (upsert acc c [])]
    constructor
    · rintro (h | h)
      · rcases (mem_names_upsert acc c j []).mp h with h | rfl
        · exact Or.inl h
        · exact Or.inr (List.mem_cons.mpr (Or.inl rfl))
      · exact Or.inr (List.mem_cons.mpr (Or.inr h))
    · rintro (h | h)
      · exact Or.inl ((mem_names_upsert acc c j []).mpr (Or.inl h))
      · rcases List.mem_cons.mp h with rfl | h
        · exact Or.inl ((mem_names_upsert acc j j []).mpr (Or.inr rfl))
        · exact Or.inr h

theorem mem_names_initReports (cols : List (List Char)) (j : List Char) :
    j ∈ names (initReports cols) ↔ j ∈ cols := by
  unfold initReports
  rw [mem_names_foldl_upsert]
  constructor
  · rintro (h | h)
    · exact absurd h (List.not_mem_nil j)
    · exact h
  · exact fun h => Or.inr h

/-! ### Claim theorems -/

/-- C1: for every input text and every list of requested report fields,
the parse of a readable file leaves each of the seven known residual
fields with exactly `len(iterations)` entries (shorter residual lists are
tail-padded with NaN and longer ones truncated by the end-of-parse pass;
on the degraded abort path both sides are zero). -/
theorem c1_residual_length_invariant (text : List Char) (cols : List (List Char))
    (f : List Char) (hf : f ∈ expectedResidualCols) :
    ((findVal (parse_starccm_logfile (some text) cols).residuals f).getD []).length =
      (parse_starccm_logfile (some text) cols).iterations.length := by
  cases hs : scanLines cols (initState cols) (splitLines text) with
  | error e =>
    rw [parse_err_eq cols text e hs]
    rfl
  | ok st =>
    rw [parse_ok_eq cols text st hs]
    have hinv := scanLines_inv cols (splitLines text) (initState cols) st (initState_inv cols) hs
    by_cases hit : st.iterations = []
    · rw [finalize_nilcase st hit]
      show ((findVal st.residuals f).getD []).length = st.iterations.length
      have h1 := hinv.resLen f
      rw [hit] at h1 ⊢
      have h2 : vlen st.residuals f = 0 := by
        have : (([] : List Nat)).length = 0 := rfl
        omega
      exact h2
    · rw [finalize_poscase st hit]
      show ((findVal (st.residuals.map (fun e => (e.1, padTrunc e.2 st.iterations.length))) f).getD
        []).length = st.iterations.length
      rw [findVal_map_padTrunc]
      have hmem : f ∈ names st.residuals := by
        rw [hinv.resNames]
        exact hf
      rcases findVal_isSome_of_mem_names st.residuals f hmem with ⟨v, hv⟩
      rw [hv]
      exact padTrunc_length v st.iterations.length

theorem c1_residual_length_invariant_witness :
    "Tke".toList ∈ expectedResidualCols ∧
    ((findVal (parse_starccm_logfile
        (some "TimeStep 1: Time 0.5\nIteration  Continuity  Tke\n1  1.0  2.0\n".toList)
        []).residuals "Tke".toList).getD []).length =
      (parse_starccm_logfile
        (some "TimeStep 1: Time 0.5\nIteration  Continuity  Tke\n1  1.0  2.0\n".toList)
        []).iterations.length :=
  ⟨by decide, c1_residual_length_invariant
    "TimeStep 1: Time 0.5\nIteration  Continuity  Tke\n1  1.0  2.0\n".toList
    [] "Tke".toList (by decide)⟩

/-- C2 counterexample: requesting fields `A` and `B` when only `A` appears
in the header leaves `reports['B']` empty while one sample is recorded, so
the claimed equality `len(reportIterations) = len(reports[f])` fails for
the requested field `B`. -/
theorem c2_report_length_counterexample :
    (parse_starccm_logfile
        (some "TimeStep 1: Time 0.5\nIteration  Continuity  A\n1  2.0  3.0\n".toList)
        ["A".toList, "B".toList]).reportIterations.length ≠
      ((findVal (parse_starccm_logfile
        (some "TimeStep 1: Time 0.5\nIteration  Continuity  A\n1  2.0  3.0\n".toList)
        ["A".toList, "B".toList]).reports "B".toList).getD []).length := by
  decide

/-- C2 amended: at the end of parsing `len(reportIterations)` always
equals `len(reportTimes)`, and every requested report field has at most
that many entries; equality for a field is not guaranteed (fields missing
from the layout at a sample, or aborted mid-row by a malformed token, are
never padded). -/
theorem c2_report_lengths_amended (text : List Char) (cols : List (List Char)) :
    (parse_starccm_logfile (some text) cols).reportTimes.length =
      (parse_starccm_logfile (some text) cols).reportIterations.length ∧
    ∀ f ∈ cols,
      ((findVal (parse_starccm_logfile (some text) cols).reports f).getD []).length ≤
        (parse_starccm_logfile (some text) cols).reportIterations.length := by
  cases hs : scanLines cols (initState cols) (splitLines text) with
  | error e =>
    rw [parse_err_eq cols text e hs]
    exact ⟨rfl, fun f _ => Nat.le_refl 0⟩
  | ok st =>
    rw [parse_ok_eq cols text st hs]
    have hinv := scanLines_inv cols (splitLines text) (initState cols) st (initState_inv cols) hs
    by_cases hit : st.iterations = []
    · rw [finalize_nilcase st hit]
      exact ⟨hinv.timesLen, fun f _ => hinv.repLen f⟩
    · rw [finalize_poscase st hit]
      exact ⟨hinv.timesLen, fun f _ => hinv.repLen f⟩

theorem c2_report_lengths_amended_witness :
    "B".toList ∈ ["A".toList, "B".toList] ∧
    ((findVal (parse_starccm_logfile
        (some "TimeStep 1: Time 0.5\nIteration  Continuity  A\n1  2.0  3.0\n".toList)
        ["A".toList, "B".toList]).reports "B".toList).getD []).length ≤
      (parse_starccm_logfile
        (some "TimeStep 1: Time 0.5\nIteration  Continuity  A\n1  2.0  3.0\n".toList)
        ["A".toList, "B".toList]).reportIterations.length :=
  ⟨by decide, (c2_report_lengths_amended
    "TimeStep 1: Time 0.5\nIteration  Continuity  A\n1  2.0  3.0\n".toList
    ["A".toList, "B".toList]).2 "B".toList (by decide)⟩

/-- The exact Scenario A input of the specification (note the single
spaces inside its header line). -/
def scenarioAText : List Char :=
  "TimeStep 1: Time 0.5\nIteration Continuity X-momentum\n1  1.0e-3  2.0e-3\n".toList

/-- C4 counterexample: on the exact Scenario A text the header columns
are separated by single spaces, so splitting on runs of two or more
whitespace characters yields no residual columns and `Continuity` ends
as `[NaN]`, not `[1.0e-3]`. -/
theorem c4_scenarioA_counterexample :
    findVal (parse_starccm_logfile (some scenarioAText) []).residuals "Continuity".toList =
      some [PyFloat.nan] ∧
    findVal (parse_starccm_logfile (some scenarioAText) []).residuals "Continuity".toList ≠
      some [PyFloat.num (Rat.divInt 1 1000)] := by
  decide

/-- C4 amended: on the exact Scenario A text the parse returns
`iterations = [1]`, every one of the seven residual sequences equal to
`[NaN]` (the single-space header builds no layout), and empty report
sequences. -/
theorem c4_scenarioA_amended :
    (parse_starccm_logfile (some scenarioAText) []).iterations = [1] ∧
    (parse_starccm_logfile (some scenarioAText) []).residuals =
      expectedResidualCols.map (fun k => (k, [PyFloat.nan])) ∧
    (parse_starccm_logfile (some scenarioAText) []).reportIterations = [] ∧
    (parse_starccm_logfile (some scenarioAText) []).reportTimes = [] ∧
    (parse_starccm_logfile (some scenarioAText) []).reports = [] := by
  decide

/-- A log whose first data row has a malformed `Tke` token after a valid
`Continuity` token, followed by a well-formed row. -/
def misalignedLogText : List Char :=
  "TimeStep 1: Time 0.5\nIteration  Continuity  Tke\n1  1.0  abc\n2  2.0  3.0\n".toList

/-- C5 failing input: after the malformed first data row (`1  1.0  abc`)
the handler guard sees `Continuity` aligned and does not pad, so `Tke`
has 0 entries while `iterations` has 1 — the claimed reconciliation to
`len(iterations)` entries does not happen; consequently the final output
records the second row's value 3.0 at the first position of `Tke`
(silent column drift), followed by a padding NaN. -/
theorem c5_reconciliation_gap :
    ((scanLines [] (initState []) ((splitLines misalignedLogText).take 3)).toOption.map
        (fun st => (st.iterations, findVal st.residuals "Tke".toList,
          findVal st.residuals "Continuity".toList)) =
      some ([1], some [], some [PyFloat.num (Rat.divInt 10 10)])) ∧
    findVal (parse_starccm_logfile (some misalignedLogText) []).residuals "Tke".toList =
      some [PyFloat.num (Rat.divInt 30 10), PyFloat.nan] := by
  decide

/-- C9 counterexample: the readable input `TimeStep 1: Time -` makes the
captured time text fail `float`, the exception escapes to the generic
handler, and both maps come back completely empty — so empty maps are not
exclusive to the missing-file/read-error path. -/
theorem c9_key_sets_counterexample :
    (parse_starccm_logfile (some "TimeStep 1: Time -".toList) []).residuals = [] ∧
    (parse_starccm_logfile (some "TimeStep 1: Time -".toList) []).reports = [] := by
  decide

/-- C9 amended: a missing file returns the fully empty result, and so
does any readable input whose scan aborts with an unhandled error (a
`TimeStep` marker whose captured time text is not a valid float); on
every input whose scan completes, the residuals map holds exactly the
seven known residual names and the reports map exactly the requested
names. -/
theorem c9_key_sets_amended (cols : List (List Char)) (text : List Char) :
    parse_starccm_logfile none cols = emptyResult ∧
    (scanLines cols (initState cols) (splitLines text) = Except.error () →
      parse_starccm_logfile (some text) cols = emptyResult) ∧
    (∀ st, scanLines cols (initState cols) (splitLines text) = Except.ok st →
      names (parse_starccm_logfile (some text) cols).residuals = expectedResidualCols ∧
      ∀ f, (f ∈ names (parse_starccm_logfile (some text) cols).reports ↔ f ∈ cols)) := by
  refine ⟨rfl, ?_, ?_⟩
  · intro h
    exact parse_err_eq cols text () h
  · intro st hs
    have hinv := scanLines_inv cols (splitLines text) (initState cols) st (initState_inv cols) hs
    rw [parse_ok_eq cols text st hs]
    by_cases hit : st.iterations = []
    · rw [finalize_nilcase st hit]
      refine ⟨hinv.resNames, ?_⟩
      intro f
      show f ∈ names st.reports ↔ f ∈ cols
      rw [hinv.repNames]
      exact mem_names_initReports cols f
    · rw [finalize_poscase st hit]
      refine ⟨?_, ?_⟩
      · show names (st.residuals.map (fun e => (e.1, padTrunc e.2 st.iterations.length))) = _
        rw [names_map_padTrunc]
        exact hinv.resNames
      · intro f
        show f ∈ names st.reports ↔ f ∈ cols
        rw [hinv.repNames]
        exact mem_names_initReports cols f

theorem c9_key_sets_amended_witness :
    scanLines ([] : List (List Char)) (initState []) (splitLines "".toList) =
      Except.ok (initState []) ∧
    names (parse_starccm_logfile (some "".toList) []).residuals = expectedResidualCols :=
  ⟨by rfl, ((c9_key_sets_amended [] "".toList).2.2 (initState []) (by rfl)).1⟩

/-- C10: a requested report field whose name is one of the seven residual
names is only ever recorded in the residual layout (the header scan tries
residual names first), so its report sequence stays empty on every input;
and when it is the gating (first requested) field, no report samples are
ever produced. -/
theorem c10_residual_named_report_field (text : List Char) (cols : List (List Char))
    (f : List Char) (_hf1 : f ∈ cols) (hf2 : f ∈ expectedResidualCols) :
    (findVal (parse_starccm_logfile (some text) cols).reports f).getD [] = [] ∧
    (∀ st, scanLines cols (initState cols) (splitLines text) = Except.ok st →
      findVal st.reportLayout f = none) ∧
    (cols.headD [] = f →
      (parse_starccm_logfile (some text) cols).reportIterations = [] ∧
      (parse_starccm_logfile (some text) cols).reportTimes = []) := by
  cases hs : scanLines cols (initState cols) (splitLines text) with
  | error e =>
    rw [parse_err_eq cols text e hs]
    refine ⟨rfl, ?_, fun _ => ⟨rfl, rfl⟩⟩
    intro st h
    exact Except.noConfusion h
  | ok st =>
    rw [parse_ok_eq cols text st hs]
    have hinv := scanLines_inv cols (splitLines text) (initState cols) st (initState_inv cols) hs
    have hrep : (finalize st).reports = st.reports := by
      by_cases hit : st.iterations = []
      · rw [finalize_nilcase st hit]
      · rw [finalize_poscase st hit]
    have hri : (finalize st).reportIterations = st.reportIterations := by
      by_cases hit : st.iterations = []
      · rw [finalize_nilcase st hit]
      · rw [finalize_poscase st hit]
    have hrt : (finalize st).reportTimes = st.reportTimes := by
      by_cases hit : st.iterations = []
      · rw [finalize_nilcase st hit]
      · rw [finalize_poscase st hit]
    refine ⟨?_, ?_, ?_⟩
    · rw [hrep]
      have h0 := hinv.repSeven f hf2
      unfold vlen at h0
      exact List.eq_nil_of_length_eq_zero h0
    · intro st0 h0
      cases h0
      exact findVal_eq_none_of_not_mem st.reportLayout f
        (fun hmem => hinv.repLayNoRes f hmem hf2)
    · intro hg
      have := hinv.gateSeven (hg ▸ hf2)
      rw [hri, hrt]
      exact this

theorem c10_residual_named_report_field_witness :
    "Tke".toList ∈ ["Tke".toList] ∧ "Tke".toList ∈ expectedResidualCols ∧
    (findVal (parse_starccm_logfile
        (some "TimeStep 1: Time 0.5\nIteration  Continuity  Tke\n1  1.0  2.0\n".toList)
        ["Tke".toList]).reports "Tke".toList).getD [] = [] ∧
    (parse_starccm_logfile
        (some "TimeStep 1: Time 0.5\nIteration  Continuity  Tke\n1  1.0  2.0\n".toList)
        ["Tke".toList]).reportIterations = [] ∧
    (parse_starccm_logfile
        (some "TimeStep 1: Time 0.5\nIteration  Continuity  Tke\n1  1.0  2.0\n".toList)
        ["Tke".toList]).reportTimes = [] :=
  ⟨by decide, by decide,
    (c10_residual_named_report_field
      "TimeStep 1: Time 0.5\nIteration  Continuity  Tke\n1  1.0  2.0\n".toList
      ["Tke".toList] "Tke".toList (by decide) (by decide)).1,
    ((c10_residual_named_report_field
      "TimeStep 1: Time 0.5\nIteration  Continuity  Tke\n1  1.0  2.0\n".toList
      ["Tke".toList] "Tke".toList (by decide) (by decide)).2.2 (by decide)).1,
    ((c10_residual_named_report_field
      "TimeStep 1: Time 0.5\nIteration  Continuity  Tke\n1  1.0  2.0\n".toList
      ["Tke".toList] "Tke".toList (by decide) (by decide)).2.2 (by decide)).2⟩

theorem matchTimestep_of_iteration_start (l : List Char)
    (h : "Iteration".toList.isPrefixOf l = true) : matchTimestep l = none := by
  cases l with
  | nil => exact absurd h (by decide)
  | cons c cs =>
    have hc : c = 'I' := by
      have h2 : ('I' == c && "teration".toList.isPrefixOf cs) = true := h
      rcases Bool.and_eq_true_iff.mp h2 with ⟨h3, _⟩
      exact (beq_iff_eq.mp h3).symm
    subst hc
    rfl

/-- C6: on every line recognized as a header, the residual layout is
replaced wholesale by the fresh mapping built from that line when at
least one token exactly matches a residual name, and kept unchanged
otherwise; independently, the report layout is replaced exactly when the
fresh report mapping got at least one entry (a token matching a requested
name that is not a residual name, residual matches taking priority), and
kept unchanged otherwise.  The line contributes no data row. -/
theorem c6_header_layout_replacement (cols : List (List Char)) (st : ParseState) (l : List Char)
    (hh : isHeaderLine cols (pstrip l) = true) :
    processLine cols st l =
      Except.ok { st with
        headerFound := true
        residualLayout :=
          if ∃ x ∈ headerTokens (pstrip l), x ∈ expectedResidualCols then
            (buildMapsAux cols 0 [] [] (headerTokens (pstrip l))).1
          else st.residualLayout
        reportLayout :=
          if ∃ x ∈ headerTokens (pstrip l), x ∉ expectedResidualCols ∧ x ∈ cols then
            (buildMapsAux cols 0 [] [] (headerTokens (pstrip l))).2
          else st.reportLayout } := by
  have hpre : "Iteration".toList.isPrefixOf (pstrip l) = true := by
    unfold isHeaderLine at hh
    rcases Bool.and_eq_true_iff.mp hh with ⟨h1, _⟩
    rcases Bool.and_eq_true_iff.mp h1 with ⟨h2, _⟩
    exact h2
  have h0 : ¬ (pstrip l).isEmpty = true := by
    intro hz
    rw [List.isEmpty_iff] at hz
    rw [hz] at hpre
    exact absurd hpre (by decide)
  have hm : matchTimestep (pstrip l) = none := matchTimestep_of_iteration_start _ hpre
  rw [processLine_header cols st l h0 hm hh]
  have e1 : ((buildMapsAux cols 0 [] [] (headerTokens (pstrip l))).1 ≠ []) ↔
      (∃ x ∈ headerTokens (pstrip l), x ∈ expectedResidualCols) := by
    rw [Ne, buildMapsAux_res_nil_iff]
    constructor
    · intro hne
      by_contra hex
      push_neg at hex
      exact hne ⟨rfl, hex⟩
    · rintro ⟨x, hx, hmem⟩ ⟨_, hall⟩
      exact hall x hx hmem
  have e2 : ((buildMapsAux cols 0 [] [] (headerTokens (pstrip l))).2 ≠ []) ↔
      (∃ x ∈ headerTokens (pstrip l), x ∉ expectedResidualCols ∧ x ∈ cols) := by
    rw [Ne, buildMapsAux_rep_nil_iff]
    constructor
    · intro hne
      by_contra hex
      push_neg at hex
      refine hne ⟨rfl, ?_⟩
      intro x hx
      by_cases hxe : x ∈ expectedResidualCols
      · exact Or.inl hxe
      · exact Or.inr (hex x hx hxe)
    · rintro ⟨x, hx, hmem1, hmem2⟩ ⟨_, hall⟩
      rcases hall x hx with hc | hc
      · exact hmem1 hc
      · exact hc hmem2
  show Except.ok (applyHeader cols st (pstrip l)) = _
  simp only [applyHeader]
  by_cases hA : ∃ x ∈ headerTokens (pstrip l), x ∈ expectedResidualCols
  · by_cases hB : ∃ x ∈ headerTokens (pstrip l), x ∉ expectedResidualCols ∧ x ∈ cols
    · rw [if_pos (e1.mpr hA), if_pos hA, if_pos (e2.mpr hB), if_pos hB]
    · rw [if_pos (e1.mpr hA), if_pos hA, if_neg (fun hc => hB (e2.mp hc)), if_neg hB]
  · by_cases hB : ∃ x ∈ headerTokens (pstrip l), x ∉ expectedResidualCols ∧ x ∈ cols
    · rw [if_neg (fun hc => hA (e1.mp hc)), if_neg hA, if_pos (e2.mpr hB), if_pos hB]
    · rw [if_neg (fun hc => hA (e1.mp hc)), if_neg hA, if_neg (fun hc => hB (e2.mp hc)), if_neg hB]

theorem c6_header_layout_replacement_witness :
    isHeaderLine [] (pstrip "Iteration  Continuity  Tke".toList) = true ∧
    processLine [] (initState []) "Iteration  Continuity  Tke".toList =
      Except.ok { initState [] with
        headerFound := true
        residualLayout :=
          if ∃ x ∈ headerTokens (pstrip "Iteration  Continuity  Tke".toList),
              x ∈ expectedResidualCols then
            (buildMapsAux [] 0 [] [] (headerTokens (pstrip "Iteration  Continuity  Tke".toList))).1
          else (initState []).residualLayout
        reportLayout :=
          if ∃ x ∈ headerTokens (pstrip "Iteration  Continuity  Tke".toList),
              x ∉ expectedResidualCols ∧ x ∈ ([] : List (List Char)) then
            (buildMapsAux [] 0 [] [] (headerTokens (pstrip "Iteration  Continuity  Tke".toList))).2
          else (initState []).reportLayout } :=
  ⟨by decide, c6_header_layout_replacement [] (initState []) "Iteration  Continuity  Tke".toList
    (by decide)⟩

/-- C7 (amended): for a data row (given as its stripped line) accepted
while the report layout maps the gating field to column `c`: if that
column's token is `---`, empty, or beyond the row's tokens, the line
appends nothing to the report sequences; and if the gating token is
present and non-placeholder and the row's residual tokens all parse (so
the row is not aborted by a numeric error before the report block), the
line produces a report sample, appending the iteration and the current
time. -/
theorem c7_report_gating (cols : List (List Char)) (st : ParseState) (l : List Char) (c : Nat)
    (hstripped : pstrip l = l)
    (hhf : st.headerFound = true) (hds : st.dataStarted = true)
    (hm : matchTimestep l = none)
    (hnh : ¬ isHeaderLine cols l = true)
    (hgate : dataRowGate l = true)
    (hdig : pyIsDigit ((reSplitWs 1 l).headD []) = true)
    (hgne : ¬ cols.headD [] = [])
    (hlay : findVal st.reportLayout (cols.headD []) = some c) :
    ((¬ c < (reSplitWs 1 l).length ∨
        (reSplitWs 1 l).getD c [] = placeholderTok ∨
        (reSplitWs 1 l).getD c [] = []) →
      ∃ st1, processLine cols st l = Except.ok st1 ∧
        st1.reportTimes = st.reportTimes ∧ st1.reportIterations = st.reportIterations ∧
        st1.reports = st.reports) ∧
    ((c < (reSplitWs 1 l).length ∧
        (reSplitWs 1 l).getD c [] ≠ placeholderTok ∧
        (reSplitWs 1 l).getD c [] ≠ []) →
      (∀ e ∈ st.residualLayout, e.2 < (reSplitWs 1 l).length →
        parseFloat ((reSplitWs 1 l).getD e.2 []) ≠ none) →
      ∃ st1, processLine cols st l = Except.ok st1 ∧
        st1.reportIterations = st.reportIterations ++ [digitsToNat ((reSplitWs 1 l).headD [])] ∧
        st1.reportTimes = st.reportTimes ++ [st.currentTime]) := by
  have h0 : ¬ (pstrip l).isEmpty = true := by
    rw [hstripped]
    intro hz
    rw [List.isEmpty_iff] at hz
    rw [hz] at hgate
    exact absurd hgate (by decide)
  have hm2 : matchTimestep (pstrip l) = none := by rw [hstripped]; exact hm
  have hnh2 : ¬ isHeaderLine cols (pstrip l) = true := by rw [hstripped]; exact hnh
  have h3 : (st.headerFound && st.dataStarted && dataRowGate (pstrip l)) = true := by
    rw [hstripped, hhf, hds, hgate]
    rfl
  have htoksne : reSplitWs 1 l ≠ [] := by
    intro hz
    rw [hz] at hdig
    exact absurd hdig (by decide)
  have hrowgate : ¬ ((reSplitWs 1 (pstrip (pstrip l))).isEmpty ||
      !pyIsDigit ((reSplitWs 1 (pstrip (pstrip l))).headD [])) = true := by
    rw [hstripped, hstripped]
    intro hor
    rcases Bool.or_eq_true_iff.mp hor with hc | hc
    · rw [List.isEmpty_iff] at hc
      exact htoksne hc
    · rw [hdig] at hc
      exact Bool.noConfusion hc
  have hline : processLine cols st l = Except.ok (rowBody cols st (reSplitWs 1 l)) := by
    rw [processLine_data cols st l h0 hm2 hnh2 h3, processRow_go cols st (pstrip l) hrowgate,
      hstripped, hstripped]
  constructor
  · intro hcond
    by_cases hr : (rowFieldLoop st.residualLayout st.residuals (reSplitWs 1 l)).2 = false
    · refine ⟨_, by rw [hline, rowBody_fail cols st _ hr], ?_, ?_, ?_⟩
      · exact (reconcile_frame _).2.1
      · exact (reconcile_frame _).2.2.1
      · exact (reconcile_frame _).2.2.2.1
    · have hr2 : (rowFieldLoop st.residualLayout st.residuals (reSplitWs 1 l)).2 = true := by
        revert hr
        cases (rowFieldLoop st.residualLayout st.residuals (reSplitWs 1 l)).2 <;> simp
      have h3c : ¬ (c < (reSplitWs 1 l).length ∧
          (reSplitWs 1 l).getD c [] ≠ placeholderTok ∧
          (reSplitWs 1 l).getD c [] ≠ []) := by
        rintro ⟨u1, u2, u3⟩
        rcases hcond with hc | hc | hc
        · exact hc u1
        · exact u2 hc
        · exact u3 hc
      refine ⟨{ st with
          iterations := st.iterations ++ [digitsToNat ((reSplitWs 1 l).headD [])]
          residuals := (rowFieldLoop st.residualLayout st.residuals (reSplitWs 1 l)).1 }, by
        rw [hline, rowBody_ok cols st _ hr2,
          reportPhase_nosample cols
            { st with
              iterations := st.iterations ++ [digitsToNat ((reSplitWs 1 l).headD [])]
              residuals := (rowFieldLoop st.residualLayout st.residuals (reSplitWs 1 l)).1 }
            (reSplitWs 1 l) (digitsToNat ((reSplitWs 1 l).headD [])) c hgne hlay h3c],
        rfl, rfl, rfl⟩
  · intro hcond hresok
    have hr2 : (rowFieldLoop st.residualLayout st.residuals (reSplitWs 1 l)).2 = true :=
      rowFieldLoop_ok _ _ _ hresok
    by_cases hrep : (rowFieldLoop st.reportLayout st.reports (reSplitWs 1 l)).2 = false
    · refine ⟨_, by
        rw [hline, rowBody_ok cols st _ hr2,
          reportPhase_sample cols
            { st with
              iterations := st.iterations ++ [digitsToNat ((reSplitWs 1 l).headD [])]
              residuals := (rowFieldLoop st.residualLayout st.residuals (reSplitWs 1 l)).1 }
            (reSplitWs 1 l) (digitsToNat ((reSplitWs 1 l).headD [])) c hgne hlay hcond,
          if_pos hrep], ?_, ?_⟩
      · exact (reconcile_frame _).2.2.1
      · exact (reconcile_frame _).2.1
    · refine ⟨_, by
        rw [hline, rowBody_ok cols st _ hr2,
          reportPhase_sample cols
            { st with
              iterations := st.iterations ++ [digitsToNat ((reSplitWs 1 l).headD [])]
              residuals := (rowFieldLoop st.residualLayout st.residuals (reSplitWs 1 l)).1 }
            (reSplitWs 1 l) (digitsToNat ((reSplitWs 1 l).headD [])) c hgne hlay hcond,
          if_neg hrep], rfl, rfl⟩

/-- A scan state, as reached after a header naming `Continuity` and the
requested report field `A`, used to witness the row-level theorems. -/
def gatingState : ParseState :=
  { initState ["A".toList] with
    headerFound := true
    dataStarted := true
    residualLayout := [("Continuity".toList, 1)]
    reportLayout := [("A".toList, 2)] }

theorem c7_report_gating_witness :
    findVal gatingState.reportLayout (["A".toList].headD []) = some 2 ∧
    pyIsDigit ((reSplitWs 1 "2  2.0  5.0".toList).headD []) = true ∧
    (∃ st1, processLine ["A".toList] gatingState "2  2.0  5.0".toList = Except.ok st1 ∧
      st1.reportIterations = gatingState.reportIterations ++
        [digitsToNat ((reSplitWs 1 "2  2.0  5.0".toList).headD [])] ∧
      st1.reportTimes = gatingState.reportTimes ++ [gatingState.currentTime]) :=
  ⟨by decide, by decide,
    (c7_report_gating ["A".toList] gatingState "2  2.0  5.0".toList 2 (by decide) rfl rfl
      (by decide) (by decide) (by decide) (by decide) (by decide) (by decide)).2
      (by decide) (by decide)⟩

/-- C3 (amended): when a data row's first token is a valid iteration
number but the token of some residual-layout field is present yet
unparseable, the row is kept in `iterations` and the fields before the
malformed one (in the layout's insertion order) are parsed normally, but
the loop is aborted at the malformed field: it and every later layout
field receive either nothing or a reconciliation NaN for that row — not
their parsed values. -/
theorem c3_malformed_residual_token (cols : List (List Char)) (st : ParseState) (l : List Char)
    (pre : List (List Char × Nat)) (bad : List Char × Nat) (post : List (List Char × Nat))
    (hstripped : pstrip l = l)
    (hhf : st.headerFound = true) (hds : st.dataStarted = true)
    (hm : matchTimestep l = none)
    (hnh : ¬ isHeaderLine cols l = true)
    (hgate : dataRowGate l = true)
    (hdig : pyIsDigit ((reSplitWs 1 l).headD []) = true)
    (hsplit : st.residualLayout = pre ++ bad :: post)
    (hnodup : (names st.residualLayout).Nodup)
    (hres : names st.residuals = expectedResidualCols)
    (hlayres : ∀ k ∈ names st.residualLayout, k ∈ expectedResidualCols)
    (haligned : ∀ k ∈ expectedResidualCols, vlen st.residuals k = st.iterations.length)
    (hpre : ∀ e ∈ pre, e.2 < (reSplitWs 1 l).length ∧
      parseFloat ((reSplitWs 1 l).getD e.2 []) ≠ none)
    (hbadlt : bad.2 < (reSplitWs 1 l).length)
    (hbadnone : parseFloat ((reSplitWs 1 l).getD bad.2 []) = none) :
    ∃ st1, processLine cols st l = Except.ok st1 ∧
      st1.iterations = st.iterations ++ [digitsToNat ((reSplitWs 1 l).headD [])] ∧
      (∀ e ∈ pre, ∀ v, parseFloat ((reSplitWs 1 l).getD e.2 []) = some v →
        findVal st1.residuals e.1 = (findVal st.residuals e.1).map (fun vs => vs ++ [v])) ∧
      (∀ e ∈ bad :: post,
        findVal st1.residuals e.1 = findVal st.residuals e.1 ∨
        findVal st1.residuals e.1 =
          (findVal st.residuals e.1).map (fun vs => vs ++ [PyFloat.nan])) := by
  have h0 : ¬ (pstrip l).isEmpty = true := by
    rw [hstripped]
    intro hz
    rw [List.isEmpty_iff] at hz
    rw [hz] at hgate
    exact absurd hgate (by decide)
  have hm2 : matchTimestep (pstrip l) = none := by rw [hstripped]; exact hm
  have hnh2 : ¬ isHeaderLine cols (pstrip l) = true := by rw [hstripped]; exact hnh
  have h3 : (st.headerFound && st.dataStarted && dataRowGate (pstrip l)) = true := by
    rw [hstripped, hhf, hds, hgate]
    rfl
  have htoksne : reSplitWs 1 l ≠ [] := by
    intro hz
    rw [hz] at hdig
    exact absurd hdig (by decide)
  have hrowgate : ¬ ((reSplitWs 1 (pstrip (pstrip l))).isEmpty ||
      !pyIsDigit ((reSplitWs 1 (pstrip (pstrip l))).headD [])) = true := by
    rw [hstripped, hstripped]
    intro hor
    rcases Bool.or_eq_true_iff.mp hor with hc | hc
    · rw [List.isEmpty_iff] at hc
      exact htoksne hc
    · rw [hdig] at hc
      exact Bool.noConfusion hc
  have hline : processLine cols st l = Except.ok (rowBody cols st (reSplitWs 1 l)) := by
    rw [processLine_data cols st l h0 hm2 hnh2 h3, processRow_go cols st (pstrip l) hrowgate,
      hstripped, hstripped]
  -- names of the pieces of the layout
  have hnamesapp : names (pre ++ bad :: post) = names pre ++ names (bad :: post) :=
    List.map_append Prod.fst pre (bad :: post)
  have hnodup2 : (names pre ++ names (bad :: post)).Nodup := by
    rw [← hnamesapp, ← hsplit]
    exact hnodup
  have hprenodup : (names pre).Nodup := (List.nodup_append.mp hnodup2).1
  have hdisj : ∀ k ∈ names (bad :: post), k ∉ names pre := by
    intro k hk hkp
    exact (List.nodup_append.mp hnodup2).2.2 hkp hk
  -- the residual loop runs the good entries, then stops at the bad one
  have hpreok : (rowFieldLoop pre st.residuals (reSplitWs 1 l)).2 = true :=
    rowFieldLoop_ok pre st.residuals (reSplitWs 1 l) (fun e he _ => (hpre e he).2)
  have hloop : rowFieldLoop st.residualLayout st.residuals (reSplitWs 1 l) =
      ((rowFieldLoop pre st.residuals (reSplitWs 1 l)).1, false) := by
    rw [hsplit, rowFieldLoop_append, if_pos hpreok,
      rowFieldLoop_cons_none bad post _ _ hbadlt hbadnone]
  have hfail : (rowFieldLoop st.residualLayout st.residuals (reSplitWs 1 l)).2 = false := by
    rw [hloop]
  refine ⟨_, by rw [hline, rowBody_fail cols st _ hfail], ?_, ?_, ?_⟩
  · exact (reconcile_frame _).1
  · -- fields before the malformed one keep their parsed value
    intro e he v hv
    have hloop1 : (rowFieldLoop st.residualLayout st.residuals (reSplitWs 1 l)).1 =
        (rowFieldLoop pre st.residuals (reSplitWs 1 l)).1 := by
      rw [hloop]
    have hval : findVal (rowFieldLoop pre st.residuals (reSplitWs 1 l)).1 e.1 =
        (findVal st.residuals e.1).map (fun vs => vs ++ [v]) :=
      rowFieldLoop_value pre st.residuals (reSplitWs 1 l) hprenodup hpre e he v hv
    have hmeme : e.1 ∈ expectedResidualCols := by
      refine hlayres e.1 ?_
      rw [hsplit, hnamesapp]
      exact List.mem_append.mpr (Or.inl (List.mem_map_of_mem Prod.fst he))
    have hsome : ∃ vs, findVal st.residuals e.1 = some vs :=
      findVal_isSome_of_mem_names st.residuals e.1 (by rw [hres]; exact hmeme)
    rcases hsome with ⟨vs, hvs⟩
    have hlen : vs.length = st.iterations.length := by
      have := haligned e.1 hmeme
      unfold vlen at this
      rw [hvs] at this
      exact this
    rcases reconcile_eq { st with
        iterations := st.iterations ++ [digitsToNat ((reSplitWs 1 l).headD [])]
        residuals := (rowFieldLoop st.residualLayout st.residuals (reSplitWs 1 l)).1 }
      with hrec | hrec
    · rw [hrec]
      show findVal (rowFieldLoop st.residualLayout st.residuals (reSplitWs 1 l)).1 e.1 = _
      rw [hloop1, hval]
    · rw [hrec]
      show findVal (padOnce (st.iterations ++ [digitsToNat ((reSplitWs 1 l).headD [])]).length
        (rowFieldLoop st.residualLayout st.residuals (reSplitWs 1 l)).1 expectedResidualCols) e.1 = _
      have hge : (st.iterations ++ [digitsToNat ((reSplitWs 1 l).headD [])]).length ≤
          vlen (rowFieldLoop st.residualLayout st.residuals (reSplitWs 1 l)).1 e.1 := by
        unfold vlen
        rw [hloop1, hval, hvs]
        show (st.iterations ++ [digitsToNat ((reSplitWs 1 l).headD [])]).length ≤
          (vs ++ [v]).length
        rw [List.length_append, List.length_append, hlen]
        show st.iterations.length + 1 ≤ st.iterations.length + 1
        exact Nat.le_refl _
      rw [padOnce_ge _ _ _ _ hge, hloop1, hval]
  · -- the malformed field and those after it never get a parsed value
    intro e he
    have hnotpre : e.1 ∉ names pre := hdisj e.1 (List.mem_map_of_mem Prod.fst he)
    have huntouched : findVal (rowFieldLoop st.residualLayout st.residuals (reSplitWs 1 l)).1 e.1 =
        findVal st.residuals e.1 := by
      rw [hloop]
      show findVal (rowFieldLoop pre st.residuals (reSplitWs 1 l)).1 e.1 = _
      exact rowFieldLoop_untouched pre st.residuals (reSplitWs 1 l) e.1 hnotpre
    rcases reconcile_eq { st with
        iterations := st.iterations ++ [digitsToNat ((reSplitWs 1 l).headD [])]
        residuals := (rowFieldLoop st.residualLayout st.residuals (reSplitWs 1 l)).1 }
      with hrec | hrec
    · rw [hrec]
      exact Or.inl huntouched
    · rw [hrec]
      have hsevennodup : expectedResidualCols.Nodup := by decide
      rcases padOnce_findVal (st.iterations ++ [digitsToNat ((reSplitWs 1 l).headD [])]).length
          (rowFieldLoop st.residualLayout st.residuals (reSplitWs 1 l)).1 expectedResidualCols
          hsevennodup e.1 with hh | hh
      · rw [hh] at *
        exact Or.inl (by rw [hh, huntouched])
      · exact Or.inr (by rw [hh, huntouched])

theorem c3_malformed_residual_token_witness :
    parseFloat ((reSplitWs 1 "1  1.0  abc".toList).getD 2 []) = none ∧
    (∃ st1, processLine [] { initState [] with
        headerFound := true
        dataStarted := true
        residualLayout := [("Continuity".toList, 1), ("X-momentum".toList, 2)] }
        "1  1.0  abc".toList = Except.ok st1 ∧
      st1.iterations = (initState []).iterations ++
        [digitsToNat ((reSplitWs 1 "1  1.0  abc".toList).headD [])] ∧
      (∀ e ∈ [(("Continuity".toList : List Char), 1)],
        ∀ v, parseFloat ((reSplitWs 1 "1  1.0  abc".toList).getD e.2 []) = some v →
          findVal st1.residuals e.1 =
            (findVal (initState []).residuals e.1).map (fun vs => vs ++ [v])) ∧
      (∀ e ∈ [(("X-momentum".toList : List Char), 2)],
        findVal st1.residuals e.1 = findVal (initState []).residuals e.1 ∨
        findVal st1.residuals e.1 =
          (findVal (initState []).residuals e.1).map (fun vs => vs ++ [PyFloat.nan]))) :=
  ⟨by decide,
    c3_malformed_residual_token [] { initState [] with
        headerFound := true
        dataStarted := true
        residualLayout := [("Continuity".toList, 1), ("X-momentum".toList, 2)] }
      "1  1.0  abc".toList [("Continuity".toList, 1)] ("X-momentum".toList, 2) []
      (by decide) rfl rfl (by decide) (by decide) (by decide) (by decide) rfl (by decide)
      (by decide) (by decide) (by decide) (by decide) (by decide) (by decide)⟩

/-- C3 counterexample: in the row `1  abc  5.0` under header columns
`Continuity` (malformed) and `X-momentum` (parseable `5.0`), the parser
records NaN for `X-momentum` as well — the other residual field of the
row is not parsed normally, because the loop aborts at the malformed
token. -/
theorem c3_malformed_residual_counterexample :
    findVal (parse_starccm_logfile
        (some "TimeStep 1: Time 0.5\nIteration  Continuity  X-momentum\n1  abc  5.0\n".toList)
        []).residuals "X-momentum".toList = some [PyFloat.nan] ∧
    findVal (parse_starccm_logfile
        (some "TimeStep 1: Time 0.5\nIteration  Continuity  X-momentum\n1  abc  5.0\n".toList)
        []).residuals "X-momentum".toList ≠ some [PyFloat.num (Rat.divInt 50 10)] := by
  decide

/-- C7 counterexample: the second data row `2  abc  5.0` has a present,
non-placeholder gating token (`5.0` for requested field `A`) and is
accepted into `iterations`, yet produces no report sample, because the
malformed `Continuity` token aborts the row before the report block. -/
theorem c7_report_gating_counterexample :
    (parse_starccm_logfile
        (some "TimeStep 1: Time 0.5\nIteration  Continuity  A\n1  1.0  ---\n2  abc  5.0\n".toList)
        ["A".toList]).iterations = [1, 2] ∧
    (parse_starccm_logfile
        (some "TimeStep 1: Time 0.5\nIteration  Continuity  A\n1  1.0  ---\n2  abc  5.0\n".toList)
        ["A".toList]).reportIterations = [] := by
  decide

/-! ### C8: time association -/

theorem scanLines_append_ok (cols : List (List Char)) (a b : List (List Char))
    (st s : ParseState) (h : scanLines cols st a = Except.ok s) :
    scanLines cols st (a ++ b) = scanLines cols s b := by
  rw [scanLines_append, h]

theorem scanLines_append_err (cols : List (List Char)) (a b : List (List Char))
    (st : ParseState) (e : Unit) (h : scanLines cols st a = Except.error e) :
    scanLines cols st (a ++ b) = Except.error e := by
  rw [scanLines_append, h]

theorem scanLines_append_inv (cols : List (List Char)) (a b : List (List Char))
    (st s2 : ParseState) (h : scanLines cols st (a ++ b) = Except.ok s2) :
    ∃ s, scanLines cols st a = Except.ok s ∧ scanLines cols s b = Except.ok s2 := by
  cases hsa : scanLines cols st a with
  | error e =>
    rw [scanLines_append_err cols a b st e hsa] at h
    exact Except.noConfusion h
  | ok s =>
    refine ⟨s, rfl, ?_⟩
    rw [scanLines_append_ok cols a b st s hsa] at h
    exact h

/-- C8: (i) scanning any marker-free line list from the initial state
accepts no data row and produces no report sample (no data row is ever
accepted before a `TimeStep` marker has been seen); (ii) after any prefix
ending in a marker whose captured text parses to `t`, scanning further
marker-free lines keeps the current time equal to `t` and appends only
`t` to the report-time sequence, so every sample between two consecutive
markers records the earlier marker's time. -/
theorem c8_time_association :
    (∀ (cols ls : List (List Char)) (st1 : ParseState),
      (∀ l ∈ ls, matchTimestep (pstrip l) = none) →
      scanLines cols (initState cols) ls = Except.ok st1 →
      st1.iterations = [] ∧ st1.reportIterations = [] ∧ st1.reportTimes = []) ∧
    (∀ (cols pre mid : List (List Char)) (m cap : List Char) (t : PyFloat) (s2 : ParseState),
      matchTimestep (pstrip m) = some cap → parseFloat cap = some t →
      (∀ l ∈ mid, matchTimestep (pstrip l) = none) →
      scanLines cols (initState cols) (pre ++ m :: mid) = Except.ok s2 →
      ∃ s1, scanLines cols (initState cols) (pre ++ [m]) = Except.ok s1 ∧
        s1.currentTime = t ∧ s2.currentTime = t ∧
        ∃ nw, s2.reportTimes = s1.reportTimes ++ nw ∧ ∀ x ∈ nw, x = t) := by
  constructor
  · intro cols ls st1 hm h
    rcases scanLines_nomarker cols ls (initState cols) hm with ⟨st2, hscan, _, _, _, hfz⟩
    rw [h] at hscan
    cases hscan
    exact hfz rfl
  · intro cols pre mid m cap t s2 hcap ht hmid h
    have hsplit : pre ++ m :: mid = (pre ++ [m]) ++ mid := by
      rw [List.append_assoc]
      rfl
    rw [hsplit] at h
    rcases scanLines_append_inv cols (pre ++ [m]) mid (initState cols) s2 h with ⟨s1, hs1, hs2⟩
    have hs1val : ∃ s0, scanLines cols (initState cols) pre = Except.ok s0 ∧
        s1 = { s0 with currentTime := t, dataStarted := true } := by
      rcases scanLines_append_inv cols pre [m] (initState cols) s1 hs1 with ⟨s0, hs0, hstep⟩
      refine ⟨s0, hs0, ?_⟩
      rw [scanLines_cons_ok cols s0 { s0 with currentTime := t, dataStarted := true } m []
        (processLine_marker cols s0 m cap t hcap ht), scanLines_nil] at hstep
      cases hstep
      rfl
    rcases hs1val with ⟨s0, _, hs1eq⟩
    have hct1 : s1.currentTime = t := by rw [hs1eq]
    rcases scanLines_nomarker cols mid s1 hmid with ⟨s2x, hscan2, hct2, _, ⟨nw, hnw, hnwall⟩, _⟩
    rw [hs2] at hscan2
    cases hscan2
    refine ⟨s1, hs1, hct1, by rw [hct2, hct1], nw, hnw, ?_⟩
    intro x hx
    rw [hnwall x hx, hct1]

theorem c8_time_association_witness :
    (∀ l ∈ [([] : List Char)], matchTimestep (pstrip l) = none) ∧
    ((initState ([] : List (List Char))).iterations = [] ∧
      (initState ([] : List (List Char))).reportIterations = [] ∧
      (initState ([] : List (List Char))).reportTimes = []) :=
  ⟨by decide, c8_time_association.1 [] [[]] (initState []) (by decide) (by rfl)⟩

end Monitor
